import Mathlib

/-!
Verification of the gscrape indexing subsystem (`gindex`, in
`cmd/gcount/main.go`'s second program, plus the shared stack-line normalizer
that also appears in the `gcount` converter) against its natural-language
specification.

Strings are modelled as `List Char`.  The Go regexes used by the normalizer
and the parser are small enough that their matching/replacement semantics
(RE2 leftmost match, greedy quantifiers) are embedded directly as recursive
scanning functions.  Machine integers (`int64` goroutine ids and Unix
timestamps) are modelled as `Nat` resp. `Int`; the decimal strings occurring
in dumps are far below the overflow range, and no claim concerns overflow.
Recursions that are not structural carry an explicit fuel argument
(initialised with the input length, which is always sufficient) so that every
definition evaluates inside the kernel.
-/

namespace GScrape

/-! ### Character classes

`isHexDigit` is the class `[0-9a-fA-F]` of the Go regexes `hexPtrRe` and
`offsetRe`.  `isWsRe` is RE2's `\s`, i.e. `[\t\n\f\r ]`.  `goIsSpace` is Go's
`unicode.IsSpace` (used by `strings.TrimSpace`). -/

def isHexDigit (c : Char) : Bool :=
  (('0' ≤ c && c ≤ '9') || ('a' ≤ c && c ≤ 'f') || ('A' ≤ c && c ≤ 'F'))

def isWsRe (c : Char) : Bool :=
  c = ' ' || c = '\t' || c = '\n' || c = '\x0c' || c = '\r'

def goIsSpace (c : Char) : Bool :=
  c = ' ' || c = '\t' || c = '\n' || c = '\x0b' || c = '\x0c' || c = '\r' ||
  c = '\x85' || c = '\xa0' || c = ' ' ||
  (' ' ≤ c && c ≤ ' ') ||
  c = ' ' || c = ' ' || c = ' ' || c = ' ' || c = '　'

/-! ### Go string helpers -/

/-- `strings.TrimSpace`. -/
def trimSpaceGo (l : List Char) : List Char :=
  ((l.dropWhile goIsSpace).reverse.dropWhile goIsSpace).reverse

/-- `strings.Split(s, "\n")`. -/
def splitNl (l : List Char) : List (List Char) :=
  List.splitOn '\n' l

/-- `strings.Join(ls, "\n")`. -/
def joinNl (ls : List (List Char)) : List Char :=
  List.intercalate ['\n'] ls

/-- `strings.Contains(l, pat)`. -/
def containsSub (pat l : List Char) : Bool :=
  l.tails.any pat.isPrefixOf

/-- `strings.Index(l, string(c))` for a one-character needle. -/
def firstIdxOf (c : Char) (l : List Char) : Option Nat :=
  l.findIdx? (· = c)

/-- `strings.LastIndex(l, string(c))` for a one-character needle. -/
def lastIdxOf (c : Char) (l : List Char) : Option Nat :=
  (firstIdxOf c l.reverse).map (fun i => l.length - 1 - i)

/-- Value of a decimal digit string, as read by `fmt.Sscanf(s, "%d", &n)`
on an all-digit input. -/
def natOfDigits (l : List Char) : Nat :=
  l.foldl (fun n c => n * 10 + (c.toNat - '0'.toNat)) 0

/-! ### The stack-line normalizer

`cleanStackLine` (and the identical inline code in the indexer's
`parseGoroutineBlock`) applies, in order:
1. `offsetRe = \+0x[0-9a-fA-F]+\s*$`, replaced by the empty string;
2. `createdByRe = (created by .+) in goroutine \d+`, replaced by `$1`;
3. `hexPtrRe = 0x[0-9a-fA-F]+\??`, replaced by `...`.
-/

/-- Does `l` (a whole suffix of the line) consist of one-or-more hex digits
followed by only `\s` characters?  Used after the literal `+0x` by
`matchOffsetSuffix`. -/
def hexStarWsStar : List Char → Bool
  | [] => true
  | c :: rest => if isHexDigit c then hexStarWsStar rest else (c :: rest).all isWsRe

/-- Does `l` (a suffix of the line, running to its end) match
`\+0x[0-9a-fA-F]+\s*$` in full? -/
def matchOffsetSuffix (l : List Char) : Bool :=
  l.head? == some '+' && l.tail.head? == some '0' && l.tail.tail.head? == some 'x' &&
  (l.tail.tail.tail.head?.map isHexDigit).getD false && hexStarWsStar (l.drop 4)

/-- `offsetRe.ReplaceAllString(line, "")`: the pattern is anchored at `$`, so
the (unique possible) match is the leftmost suffix of the given form, which is
removed. -/
def stripOffset : List Char → List Char
  | [] => []
  | c :: rest => if matchOffsetSuffix (c :: rest) then [] else c :: stripOffset rest

theorem matchOffsetSuffix_iff (l : List Char) :
    matchOffsetSuffix l = true ↔
      ∃ d t, l = '+' :: '0' :: 'x' :: d :: t ∧ isHexDigit d = true ∧
        hexStarWsStar t = true := by
  constructor
  · intro h
    unfold matchOffsetSuffix at h
    cases l with
    | nil => simp at h
    | cons a l1 =>
      cases l1 with
      | nil => simp at h
      | cons b l2 =>
        cases l2 with
        | nil => simp at h
        | cons e l3 =>
          cases l3 with
          | nil => simp at h
          | cons d t =>
            simp only [List.head?_cons, List.tail_cons, Option.map_some',
              Option.getD_some, Bool.and_eq_true, beq_iff_eq,
              Option.some.injEq, List.drop_succ_cons, List.drop_zero] at h
            obtain ⟨⟨⟨⟨ha, hb⟩, he⟩, hd⟩, ht⟩ := h
            exact ⟨d, t, by rw [ha, hb, he], hd, ht⟩
  · rintro ⟨d, t, rfl, hd, ht⟩
    unfold matchOffsetSuffix
    simp [hd, ht]

/-- Literal `"created by "` (the prefix required by `createdByRe`). -/
def cbLit : List Char := "created by ".data

/-- Literal `" in goroutine "` (between `.+` and `\d+` in `createdByRe`). -/
def igLit : List Char := " in goroutine ".data

/-- Does `l` start with `" in goroutine "` followed by at least one digit? -/
def igAt (l : List Char) : Bool :=
  igLit.isPrefixOf l && ((l.drop 14).head?.map Char.isDigit).getD false

/-- Right-most decomposition `l = a ++ " in goroutine " ++ d ++ r` with `d` a
maximal nonempty digit run; returns `(a, r)`.  This implements the greedy
`.+` of `createdByRe`: the regex engine commits to the last occurrence of
`" in goroutine "` followed by a digit, and `\d+` then takes the maximal
digit run. -/
def lastGoro : List Char → Option (List Char × List Char)
  | [] => none
  | c :: rest =>
    match lastGoro rest with
    | some (a, r) => some (c :: a, r)
    | none =>
      if igAt (c :: rest) then
        some ([], ((c :: rest).drop 14).dropWhile Char.isDigit)
      else none

theorem lastGoro_length {l a r : List Char} (h : lastGoro l = some (a, r)) :
    r.length + 15 ≤ l.length := by
  induction l generalizing a with
  | nil => simp [lastGoro] at h
  | cons c rest ih =>
    rw [lastGoro] at h
    cases hg : lastGoro rest with
    | some p =>
      rw [hg] at h
      obtain ⟨a', r'⟩ := p
      simp only [Option.some.injEq, Prod.mk.injEq] at h
      obtain ⟨-, h2⟩ := h
      subst h2
      have := ih (a := a') hg
      simp only [List.length_cons]
      omega
    | none =>
      rw [hg] at h
      by_cases hig : igAt (c :: rest)
      · simp only [hig, if_true, Option.some.injEq, Prod.mk.injEq] at h
        obtain ⟨-, h2⟩ := h
        have hd : (((c :: rest).drop 14).head?.map Char.isDigit).getD false := by
          have := hig
          unfold igAt at this
          exact (Bool.and_eq_true _ _ |>.mp this).2
        have hne : ((c :: rest).drop 14) ≠ [] := by
          intro he
          rw [he] at hd
          simp at hd
        have h2' : r.length ≤ ((c :: rest).drop 14).length - 1 := by
          rw [← h2]
          cases hX : (c :: rest).drop 14 with
          | nil => exact absurd hX hne
          | cons x xs =>
            have hxdig : Char.isDigit x := by
              rw [hX] at hd
              simpa using hd
            rw [List.dropWhile_cons, hxdig]
            simpa using (List.dropWhile_sublist (l := xs) Char.isDigit).length_le
        have h14 : 14 ≤ (c :: rest).length := by
          by_contra hlt
          push_neg at hlt
          have : (c :: rest).drop 14 = [] := List.drop_eq_nil_of_le (by omega)
          exact hne this
        have h1 : 1 ≤ ((c :: rest).drop 14).length := by
          cases hX : (c :: rest).drop 14 with
          | nil => exact absurd hX hne
          | cons x xs => simp
        have h3 : ((c :: rest).drop 14).length = (c :: rest).length - 14 := by
          simp
        omega
      · simp [hig] at h

/-- Attempt `createdByRe` at the head of `l`.  On success returns the
replacement text `$1` (i.e. `"created by " ++ M`) together with the rest of
the string after the match. -/
def matchCreatedByAt (l : List Char) : Option (List Char × List Char) :=
  if cbLit.isPrefixOf l then
    match l.drop 11 with
    | [] => none
    | c0 :: t' => (lastGoro t').map (fun p => (cbLit ++ c0 :: p.1, p.2))
  else none

theorem matchCreatedByAt_length {l g r : List Char}
    (h : matchCreatedByAt l = some (g, r)) : r.length < l.length := by
  unfold matchCreatedByAt at h
  split at h
  case isTrue hp =>
    split at h
    case h_1 => simp at h
    case h_2 c0 t' hd =>
      cases hg : lastGoro t' with
      | none => rw [hg] at h; simp at h
      | some p =>
        rw [hg] at h
        obtain ⟨a, r'⟩ := p
        simp only [Option.map_some', Option.some.injEq, Prod.mk.injEq] at h
        obtain ⟨-, h2⟩ := h
        subst h2
        have hb := lastGoro_length hg
        have h11 : 11 ≤ l.length := by
          have := List.IsPrefix.length_le (List.isPrefixOf_iff_prefix.mp hp)
          simpa [cbLit] using this
        have hlen : (l.drop 11).length = l.length - 11 := by simp
        rw [hd] at hlen
        simp only [List.length_cons] at hlen
        omega
  case isFalse => simp at h

/-- Fuel-driven form of `createdByRe.ReplaceAllString(line, "$1")`: a
left-to-right scan replacing each (leftmost, greedy) match by its first
capture group.  The fuel only makes the recursion structural; it never runs
out when initialised with the input length. -/
def createdByReplaceF : Nat → List Char → List Char
  | _, [] => []
  | 0, l => l
  | fuel + 1, c :: rest =>
    match matchCreatedByAt (c :: rest) with
    | some (g, r) => g ++ createdByReplaceF fuel r
    | none => c :: createdByReplaceF fuel rest

/-- `createdByRe.ReplaceAllString(line, "$1")`. -/
def createdByReplace (l : List Char) : List Char :=
  createdByReplaceF l.length l

theorem createdByReplaceF_fuel {f1 g : Nat} {l : List Char}
    (h1 : l.length ≤ f1) (h2 : l.length ≤ g) :
    createdByReplaceF f1 l = createdByReplaceF g l := by
  induction f1 generalizing g l with
  | zero =>
    have : l = [] := List.eq_nil_of_length_eq_zero (by omega)
    subst this
    cases g <;> rfl
  | succ f1' ih =>
    cases l with
    | nil => cases g <;> rfl
    | cons c rest =>
      cases g with
      | zero => simp at h2
      | succ g' =>
        cases hm : matchCreatedByAt (c :: rest) with
        | some p =>
          obtain ⟨g, r⟩ := p
          have hr := matchCreatedByAt_length hm
          simp only [List.length_cons] at h1 h2 hr
          simp only [createdByReplaceF, hm]
          rw [ih (l := r) (g := g') (by omega) (by omega)]
        | none =>
          simp only [List.length_cons] at h1 h2
          simp only [createdByReplaceF, hm]
          rw [ih (l := rest) (g := g') (by omega) (by omega)]

theorem createdByReplace_nil : createdByReplace [] = [] := rfl

theorem createdByReplace_cons (c : Char) (rest : List Char) :
    createdByReplace (c :: rest) =
      match matchCreatedByAt (c :: rest) with
      | some (g, r) => g ++ createdByReplace r
      | none => c :: createdByReplace rest := by
  unfold createdByReplace
  cases hm : matchCreatedByAt (c :: rest) with
  | some p =>
    obtain ⟨g, r⟩ := p
    have hr := matchCreatedByAt_length hm
    simp only [List.length_cons] at hr
    simp only [List.length_cons, createdByReplaceF, hm]
    rw [createdByReplaceF_fuel (l := r) (g := r.length) (by omega) (by omega)]
  | none =>
    simp only [List.length_cons, createdByReplaceF, hm]

/-- Does a `hexPtrRe` match (`0x` followed by at least one hex digit) start
at the head of `l`? -/
def startsHexPtr (l : List Char) : Bool :=
  l.head? == some '0' && l.tail.head? == some 'x' &&
  (l.tail.tail.head?.map isHexDigit).getD false

theorem startsHexPtr_iff (l : List Char) :
    startsHexPtr l = true ↔ ∃ d t, l = '0' :: 'x' :: d :: t ∧ isHexDigit d = true := by
  constructor
  · intro h
    unfold startsHexPtr at h
    cases l with
    | nil => simp at h
    | cons a l1 =>
      cases l1 with
      | nil => simp at h
      | cons b l2 =>
        cases l2 with
        | nil => simp at h
        | cons d t =>
          simp only [List.head?_cons, List.tail_cons, Option.map_some',
            Option.getD_some, Bool.and_eq_true, beq_iff_eq, Option.some.injEq] at h
          obtain ⟨⟨ha, hb⟩, hd⟩ := h
          exact ⟨d, t, by rw [ha, hb], hd⟩
  · rintro ⟨d, t, rfl, hd⟩
    unfold startsHexPtr
    simp [hd]

theorem startsHexPtr_of_ne {c : Char} (hc : c ≠ '0') (xs : List Char) :
    startsHexPtr (c :: xs) = false := by
  cases h : startsHexPtr (c :: xs)
  · rfl
  · rw [startsHexPtr_iff] at h
    obtain ⟨d, t, he, -⟩ := h
    injection he with h1 _
    exact absurd h1 hc

/-- The optional trailing `?` of `hexPtrRe`. -/
def dropQ (l : List Char) : List Char :=
  if l.head? == some '?' then l.tail else l

/-- The rest of the line after a `hexPtrRe` match starting at `c₀ :: l`
(with `l` the characters after `c₀ = '0'`): skip the `x`, the maximal hex
run, and an optional `?`. -/
def afterHexPtr (l : List Char) : List Char :=
  dropQ ((l.drop 1).dropWhile isHexDigit)

theorem afterHexPtr_length (l : List Char) : (afterHexPtr l).length ≤ l.length - 1 := by
  unfold afterHexPtr dropQ
  have h2 : ((l.drop 1).dropWhile isHexDigit).length ≤ (l.drop 1).length :=
    (List.dropWhile_sublist _).length_le
  have h3 : (l.drop 1).length = l.length - 1 := by simp
  have h4 : ∀ t : List Char, t.tail.length ≤ t.length := fun t => by
    simp [List.length_tail]
  split
  · exact le_trans (le_trans (h4 _) h2) (le_of_eq h3)
  · omega

/-- Fuel-driven form of `hexPtrRe.ReplaceAllString(line, "...")`: each match
(`0x`, maximal hex run, optional `?`) becomes `...`. -/
def hexPtrReplaceF : Nat → List Char → List Char
  | _, [] => []
  | 0, l => l
  | fuel + 1, c :: rest =>
    if startsHexPtr (c :: rest) then
      '.' :: '.' :: '.' :: hexPtrReplaceF fuel (afterHexPtr rest)
    else c :: hexPtrReplaceF fuel rest

/-- `hexPtrRe.ReplaceAllString(line, "...")`. -/
def hexPtrReplace (l : List Char) : List Char :=
  hexPtrReplaceF l.length l

theorem hexPtrReplaceF_fuel {f1 g : Nat} {l : List Char}
    (h1 : l.length ≤ f1) (h2 : l.length ≤ g) :
    hexPtrReplaceF f1 l = hexPtrReplaceF g l := by
  induction f1 generalizing g l with
  | zero =>
    have : l = [] := List.eq_nil_of_length_eq_zero (by omega)
    subst this
    cases g <;> rfl
  | succ f1' ih =>
    cases l with
    | nil => cases g <;> rfl
    | cons c rest =>
      cases g with
      | zero => simp at h2
      | succ g' =>
        by_cases hs : startsHexPtr (c :: rest)
        · have hr := afterHexPtr_length rest
          simp only [List.length_cons] at h1 h2
          simp only [hexPtrReplaceF, hs, if_true]
          rw [ih (l := afterHexPtr rest) (g := g') (by omega) (by omega)]
        · simp only [List.length_cons] at h1 h2
          simp only [hexPtrReplaceF, hs, if_false, Bool.false_eq_true]
          rw [ih (l := rest) (g := g') (by omega) (by omega)]

theorem hexPtrReplace_nil : hexPtrReplace [] = [] := rfl

theorem hexPtrReplace_cons (c : Char) (rest : List Char) :
    hexPtrReplace (c :: rest) =
      if startsHexPtr (c :: rest) then
        '.' :: '.' :: '.' :: hexPtrReplace (afterHexPtr rest)
      else c :: hexPtrReplace rest := by
  unfold hexPtrReplace
  by_cases hs : startsHexPtr (c :: rest)
  · have hr := afterHexPtr_length rest
    simp only [List.length_cons, hexPtrReplaceF, hs, if_true]
    rw [hexPtrReplaceF_fuel (l := afterHexPtr rest) (g := (afterHexPtr rest).length)
      (by omega) (by omega)]
  · simp only [List.length_cons, hexPtrReplaceF, hs, if_false, Bool.false_eq_true]

/-- `cleanStackLine` of `cmd/gcount/main.go` (and the identical inline
normalization in the indexer's `parseGoroutineBlock`): strip a trailing
frame offset, drop the `in goroutine N` tail of a `created by` line, and
replace hex pointers by `...`. -/
def cleanStackLine (l : List Char) : List Char :=
  hexPtrReplace (createdByReplace (stripOffset l))

example : cleanStackLine "pkg.Do(0xc0001234, 0x456)".data = "pkg.Do(..., ...)".data := by
  decide

example : cleanStackLine "/a/b.go:10 +0x45".data = "/a/b.go:10 ".data := by decide

example : cleanStackLine "created by pkg.main in goroutine 5".data
    = "created by pkg.main".data := by decide

/-! ### Properties of the normalizer used by several claims

A string is `hexPtrFree` when no `hexPtrRe` match starts anywhere in it.
The output of `hexPtrReplace` is always `hexPtrFree`, and on a `hexPtrFree`
string both `hexPtrReplace` and `stripOffset` act as the identity. -/

def hexPtrFree : List Char → Bool
  | [] => true
  | c :: rest => !startsHexPtr (c :: rest) && hexPtrFree rest

theorem hexPtrReplace_of_hexPtrFree {l : List Char} (h : hexPtrFree l = true) :
    hexPtrReplace l = l := by
  induction l with
  | nil => rfl
  | cons c rest ih =>
    rw [hexPtrFree] at h
    obtain ⟨h1, h2⟩ := Bool.and_eq_true _ _ |>.mp h
    rw [hexPtrReplace_cons]
    simp only [Bool.not_eq_true'] at h1
    rw [h1]
    simp only [if_false, Bool.false_eq_true]
    rw [ih h2]

/-- The head of the `hexPtrReplace` output is a literal copy of the input
head whenever it is not a dot. -/
theorem hexPtrReplace_head {t s : List Char} {c : Char} (hc : c ≠ '.')
    (h : hexPtrReplace t = c :: s) :
    ∃ t', t = c :: t' ∧ s = hexPtrReplace t' ∧ startsHexPtr (c :: t') = false := by
  cases t with
  | nil => simp [hexPtrReplace_nil] at h
  | cons c0 rest =>
    rw [hexPtrReplace_cons] at h
    by_cases hs : startsHexPtr (c0 :: rest)
    · rw [hs] at h
      simp only [if_true, List.cons.injEq] at h
      exact absurd h.1.symm hc
    · simp only [hs, if_false, Bool.false_eq_true, List.cons.injEq] at h
      obtain ⟨h1, h2⟩ := h
      subst h1
      exact ⟨rest, rfl, h2.symm, Bool.not_eq_true _ |>.mp hs⟩

theorem isHexDigit_ne_dot {c : Char} (h : isHexDigit c = true) : c ≠ '.' := by
  intro he
  subst he
  simp [isHexDigit] at h

theorem hexPtrFree_hexPtrReplace (l : List Char) :
    hexPtrFree (hexPtrReplace l) = true := by
  suffices h : ∀ n (l : List Char), l.length ≤ n → hexPtrFree (hexPtrReplace l) = true from
    h l.length l le_rfl
  intro n
  induction n with
  | zero =>
    intro l hl
    have : l = [] := List.eq_nil_of_length_eq_zero (by omega)
    subst this
    rfl
  | succ n ih =>
    intro l hl
    cases l with
    | nil => rfl
    | cons c rest =>
      rw [hexPtrReplace_cons]
      by_cases hs : startsHexPtr (c :: rest)
      · rw [hs]
        simp only [if_true]
        have hlen : (afterHexPtr rest).length ≤ n := by
          have := afterHexPtr_length rest
          simp only [List.length_cons] at hl
          omega
        have hrec := ih (afterHexPtr rest) hlen
        have hdot : ∀ xs : List Char, startsHexPtr ('.' :: xs) = false :=
          startsHexPtr_of_ne (by decide)
        rw [hexPtrFree, hdot, hexPtrFree, hdot, hexPtrFree, hdot, hrec]
        rfl
      · simp only [hs, if_false, Bool.false_eq_true]
        have hrec := ih rest (by simp only [List.length_cons] at hl; omega)
        rw [hexPtrFree, hrec, Bool.and_true, Bool.not_eq_true']
        by_contra hne
        have hst : startsHexPtr (c :: hexPtrReplace rest) = true :=
          Bool.not_eq_false _ |>.mp hne
        rw [startsHexPtr_iff] at hst
        obtain ⟨d, t, he, hd⟩ := hst
        injection he with hc0 hR
        subst hc0
        -- the output tail starts with 'x' then a hex digit; pull both back
        obtain ⟨t1, ht1, hs1, -⟩ := hexPtrReplace_head (by decide) hR
        obtain ⟨t2, ht2, -, -⟩ := hexPtrReplace_head (isHexDigit_ne_dot hd) hs1.symm
        -- so rest = 'x' :: d :: t2 with d hex: the guard would have fired
        apply hs
        rw [startsHexPtr_iff]
        exact ⟨d, t2, by rw [ht1, ht2], hd⟩

theorem stripOffset_of_hexPtrFree {l : List Char} (h : hexPtrFree l = true) :
    stripOffset l = l := by
  induction l with
  | nil => rfl
  | cons c rest ih =>
    rw [hexPtrFree] at h
    obtain ⟨-, h2⟩ := Bool.and_eq_true _ _ |>.mp h
    rw [stripOffset]
    have hm : matchOffsetSuffix (c :: rest) = false := by
      by_contra hne
      have hm' : matchOffsetSuffix (c :: rest) = true := Bool.not_eq_false _ |>.mp hne
      rw [matchOffsetSuffix_iff] at hm'
      obtain ⟨d, t, he, hd, -⟩ := hm'
      injection he with hplus hrest
      subst hrest
      rw [hexPtrFree] at h2
      obtain ⟨hns, -⟩ := Bool.and_eq_true _ _ |>.mp h2
      simp only [Bool.not_eq_true'] at hns
      rw [(startsHexPtr_iff _).mpr ⟨d, t, rfl, hd⟩] at hns
      exact absurd hns (by simp)
    simp only [hm, Bool.false_eq_true, if_false]
    rw [ih h2]

/-! ### The dump parser (`parseGoroutines`, `parseGoroutineBlock`)

`goroHeaderRe = (?m)^goroutine (\d+) \[([^\],]+)` locates per-goroutine
blocks; `createdByGoroIDRe = in goroutine (\d+)\s*$` extracts the parent
goroutine id. -/

/-- A parsed goroutine block (`parsedGoroutine` in the source).  The source
struct also carries a `funcs` list filled from `funcNameRe`; that field is
never read by the indexing outputs (occurrences are rebuilt from the stored
stack via `extractFuncsFromStack`), so it is not modelled. -/
structure ParsedGoroutine where
  state : List Char
  stack : List Char
  createdBy : Nat
deriving DecidableEq

/-- Match of `goroHeaderRe` at the head of `l`: returns the captured id
digits, the captured state (`[^\],]+`, greedy), and the match length. -/
def goroHeaderAt (l : List Char) : Option (List Char × List Char × Nat) :=
  if "goroutine ".data.isPrefixOf l then
    let t := l.drop 10
    let d := t.takeWhile Char.isDigit
    if d.isEmpty then none
    else
      let t2 := t.dropWhile Char.isDigit
      if " [".data.isPrefixOf t2 then
        let s := (t2.drop 2).takeWhile (fun c => !(c = ']' || c = ','))
        if s.isEmpty then none
        else some (d, s, 10 + d.length + 2 + s.length)
      else none
  else none

/-- Match of `createdByGoroIDRe = in goroutine (\d+)\s*$` starting exactly at
the head of `l` (which runs to the end of the line): the digit run is
maximal and only `\s` characters may follow it. -/
def igtAt (l : List Char) : Option Nat :=
  if "in goroutine ".data.isPrefixOf l then
    let t := l.drop 13
    let d := t.takeWhile Char.isDigit
    if d.isEmpty then none
    else if (t.dropWhile Char.isDigit).all isWsRe then some (natOfDigits d) else none
  else none

/-- `createdByGoroIDRe.FindStringSubmatch(line)`: leftmost match. -/
def inGoroTail : List Char → Option Nat
  | [] => none
  | c :: rest =>
    match igtAt (c :: rest) with
    | some n => some n
    | none => inGoroTail rest

/-- The `createdBy` accumulation of `parseGoroutineBlock`: scanning the
(trimmed, nonempty) lines in order, the first `in goroutine N` tail found
while `createdBy` is still `0` sets it. -/
def createdByScan (lines : List (List Char)) : Nat :=
  lines.foldl (fun cb line => if cb = 0 then (inGoroTail line).getD 0 else cb) 0

/-- `parseGoroutineBlock` of the indexer: header state, normalized stack
(trimmed nonempty lines, each `cleanStackLine`d, joined by newlines) and the
parent goroutine id. -/
def parseGoroutineBlockM (block : List Char) : Option ParsedGoroutine :=
  match splitNl block with
  | [] => none
  | l0 :: rest =>
    match goroHeaderAt l0 with
    | none => none
    | some (_, state, _) =>
      let ls := (rest.map trimSpaceGo).filter (fun l => !l.isEmpty)
      some { state := state
             stack := joinNl (ls.map cleanStackLine)
             createdBy := createdByScan ls }

/-- `goroHeaderRe.FindAllStringIndex(data, -1)` over the whole dump: start
positions of all (non-overlapping, leftmost) header matches.  The `(?m)^`
anchor is tracked by the `atStart` flag; after a match the scan resumes at
the match end.  `fuel` (initialised with the input length, always
sufficient) makes the recursion structural. -/
def scanHeaders : Nat → List Char → Nat → Bool → List Nat
  | _, [], _, _ => []
  | 0, _, _, _ => []
  | fuel + 1, c :: rest, pos, atStart =>
    if atStart then
      match goroHeaderAt (c :: rest) with
      | some (_, _, len) =>
        pos :: scanHeaders fuel ((c :: rest).drop len) (pos + len)
          (((c :: rest).drop (len - 1)).head? == some '\n')
      | none => scanHeaders fuel rest (pos + 1) (c == '\n')
    else scanHeaders fuel rest (pos + 1) (c == '\n')

def headerStarts (data : List Char) : List Nat :=
  scanHeaders data.length data 0 true

/-- The per-goroutine blocks of a dump: the text between consecutive header
match starts (the last block runs to the end of the dump). -/
def blocksOf (data : List Char) : List (List Char) :=
  let ss := headerStarts data
  (ss.zip (ss.drop 1 ++ [data.length])).map (fun p => (data.take p.2).drop p.1)

/-- Go map assignment `m[k] = v`. -/
def upsert (k : Nat) (v : ParsedGoroutine) :
    List (Nat × ParsedGoroutine) → List (Nat × ParsedGoroutine)
  | [] => [(k, v)]
  | (k', v') :: rest => if k' = k then (k, v) :: rest else (k', v') :: upsert k v rest

/-- Go map lookup `m[k]`. -/
def lookupG (m : List (Nat × ParsedGoroutine)) (k : Nat) : Option ParsedGoroutine :=
  (m.find? (fun kv => kv.1 == k)).map (·.2)

/-- The per-block body of the `parseGoroutines` loop: on a successful parse,
extract the goroutine id from the block's own header match and store the
record under it (`result[goroID] = g`, overwriting any earlier block with
the same id). -/
def pgStep (m : List (Nat × ParsedGoroutine)) (block : List Char) :
    List (Nat × ParsedGoroutine) :=
  match parseGoroutineBlockM block with
  | none => m
  | some g =>
    match goroHeaderAt block with
    | some (d, _, _) => upsert (natOfDigits d) g m
    | none => m

/-- `parseGoroutines`. -/
def parseGoroutines (data : List Char) : List (Nat × ParsedGoroutine) :=
  (blocksOf data).foldl pgStep []

/-- The `(goroutine-id, record)` pair a single block contributes, if any. -/
def blockParse (block : List Char) : Option (Nat × ParsedGoroutine) :=
  match parseGoroutineBlockM block with
  | none => none
  | some g =>
    match goroHeaderAt block with
    | some (d, _, _) => some (natOfDigits d, g)
    | none => none

theorem pgStep_eq (m : List (Nat × ParsedGoroutine)) (block : List Char) :
    pgStep m block =
      match blockParse block with
      | some kv => upsert kv.1 kv.2 m
      | none => m := by
  unfold pgStep blockParse
  cases parseGoroutineBlockM block with
  | none => rfl
  | some g =>
    cases goroHeaderAt block with
    | none => rfl
    | some p =>
      obtain ⟨d, s, len⟩ := p
      rfl

example :
    parseGoroutines ("goroutine 7 [running]:\npkg.f()\n\t/a/b.go:1 +0x10\ncreated by pkg.main in goroutine 99\n\t/a/c.go:2 +0x5\n").data
      = [(7, { state := "running".data,
               stack := ("pkg.f()\n/a/b.go:1 \ncreated by pkg.main\n/a/c.go:2 ").data,
               createdBy := 99 })] := by
  decide

example :
    parseGoroutines ("goroutine 3 [select]:\npkg.a()\ngoroutine 3 [IO wait, 5 minutes]:\npkg.b()\n").data
      = [(3, { state := "IO wait".data, stack := "pkg.b()".data, createdBy := 0 })] := by
  decide

/-! ### Symbol extraction (`cleanFuncName`, `extractFuncsFromStack`,
`extractFirstTwoFuncs`) -/

/-- `cleanFuncName`: truncate function arguments appearing after the last
dot, preserving method receivers. -/
def cleanFuncName (fn : List Char) : List Char :=
  match lastIdxOf '.' fn with
  | some ld =>
    if 0 < ld then
      match firstIdxOf '(' (fn.drop ld) with
      | some pidx => if 0 < pidx then fn.take (ld + pidx) else fn
      | none => fn
    else fn
  | none => fn

/-- The per-line step of `extractFuncsFromStack`: skip empty, location
(`.go:`) and `created by` lines; truncate at the first `(` unless it closes
a method receiver; clean; drop if empty. -/
def stackFuncOfLine (raw : List Char) : Option (List Char) :=
  let line := trimSpaceGo raw
  if line.isEmpty || containsSub ".go:".data line then none
  else if "created by".data.isPrefixOf line then none
  else
    let fn1 :=
      match firstIdxOf '(' line with
      | some i =>
        if 0 < i then
          let bp := line.take i
          match bp.getLast? with
          | some c => if c ≠ '.' ∧ c ≠ '*' then bp else line
          | none => line
        else line
      | none => line
    let fn2 := cleanFuncName fn1
    if fn2.isEmpty then none else some fn2

/-- `extractFuncsFromStack`: every function symbol of a normalized stack,
in line order (duplicates kept; callers deduplicate via a set). -/
def extractFuncsFromStack (stack : List Char) : List (List Char) :=
  (splitNl stack).filterMap stackFuncOfLine

/-- The per-line step of `extractFirstTwoFuncs`: skip empty, location and
`created by` lines; drop the package path up to the last `/`; truncate at
the last `(` unless it closes a method receiver. -/
def entryFuncOfLine (raw : List Char) : Option (List Char) :=
  let line := trimSpaceGo raw
  if line.isEmpty || containsSub ".go:".data line then none
  else if "created by".data.isPrefixOf line then none
  else
    let fn1 :=
      match lastIdxOf '/' line with
      | some i => line.drop (i + 1)
      | none => line
    let fn2 :=
      match lastIdxOf '(' fn1 with
      | some i =>
        if 0 < i then
          let bp := fn1.take i
          match bp.getLast? with
          | some c => if c ≠ '.' ∧ c ≠ '*' then bp else fn1
          | none => fn1
        else fn1
      | none => fn1
    some fn2

/-- `extractFirstTwoFuncs` (named `extractBottomTwoFuncs` in its comment):
the last two collected symbols joined by `" -> "`; a single symbol alone;
empty when none. -/
def extractFirstTwoFuncs (stack : List Char) : List Char :=
  let fs := (splitNl stack).filterMap entryFuncOfLine
  match fs.getLast?, fs.dropLast.getLast? with
  | none, _ => []
  | some a, none => a
  | some a, some b => b ++ " -> ".data ++ a

example :
    extractFirstTwoFuncs ("pkg.inner(...)\n/s/a.go:1 \npkg.middle(...)\n/s/b.go:2 \npkg.outer(...)\n/s/c.go:3 \ncreated by pkg.outer").data
      = "pkg.middle -> pkg.outer".data := by decide

example : extractFuncsFromStack ("pkg.f(...)\n/a/b.go:1 ").data = ["pkg.f".data] := by
  decide

/-! ### Per-host aggregation (`processHost`)

A `DumpFile` models one `*.goroutines.txt.gz` file of a host directory.
The filename-timestamp parse (`time.Parse`, Go stdlib) and the gzip stream
read are the embedding boundary: `ts = none` models a filename whose
timestamp does not parse, `content = none` an unreadable stream; in both
cases `parseSnapshotFile` yields no result and the file is skipped. -/

structure DumpFile where
  ts : Option Int
  content : Option (List Char)

structure ParseResult where
  ts : Int
  goros : List (Nat × ParsedGoroutine)
deriving DecidableEq

/-- A persisted `StackEntry` (timestamp, state, normalized stack, parent
goroutine id; `0` means no parent recorded). -/
structure StackEntry where
  ts : Int
  state : List Char
  stack : List Char
  createdBy : Nat
deriving DecidableEq

def parseSnapshotFile (f : DumpFile) : Option ParseResult :=
  match f.ts with
  | none => none
  | some ts =>
    match f.content with
    | none => none
    | some data => some ⟨ts, parseGoroutines data⟩

/-- `sort.Slice(allResults, ...Before...)`: the results sorted by timestamp
(modelled by insertion sort; the Go sort is some sorted permutation, and
ties — impossible for distinct filenames — are the only freedom). -/
def insertByTs (r : ParseResult) : List ParseResult → List ParseResult
  | [] => [r]
  | x :: xs => if r.ts ≤ x.ts then r :: x :: xs else x :: insertByTs r xs

def sortByTs (rs : List ParseResult) : List ParseResult :=
  rs.foldr insertByTs []

/-- Parse all files of one host (order-independent parallel fan-out) and
sort the successfully parsed results by timestamp. -/
def hostResults (files : List DumpFile) : List ParseResult :=
  sortByTs (files.filterMap parseSnapshotFile)

def mkEntry (ts : Int) (g : ParsedGoroutine) : StackEntry :=
  ⟨ts, g.state, g.stack, g.createdBy⟩

/-- The `GoroutineTimeSeries` built for goroutine `id`: walking the sorted
results in order, one `StackEntry` per result whose map contains `id`. -/
def seriesFor (rs : List ParseResult) (id : Nat) : List StackEntry :=
  rs.filterMap (fun r => (lookupG r.goros id).map (mkEntry r.ts))

/-- The goroutine ids of the host (keys of the `goroSeries` map; iteration
order of the Go map is unspecified, modelled as first-appearance order). -/
def allIds (rs : List ParseResult) : List Nat :=
  ((rs.map (fun r => r.goros.map (·.1))).flatten).dedup

/-- `statsTimestamps` of `processHost`. -/
def statsTimestamps (rs : List ParseResult) : List Int :=
  rs.map (·.ts)

/-- `statsCounts` of `processHost` (`len(r.goros)` per snapshot). -/
def statsCounts (rs : List ParseResult) : List Nat :=
  rs.map (fun r => r.goros.length)

/-! ### Children index -/

structure ChildInfo where
  id : Nat
  funcs : List Char
  firstSeen : Int
  lastSeen : Int
deriving DecidableEq

/-- The parent-search loop of the children-index pass: the first entry with
a non-zero `createdBy` fixes both the parent id and the label, the label
being extracted from that same entry's stack. -/
def findParent : List StackEntry → Nat × List Char
  | [] => (0, [])
  | e :: rest =>
    if e.createdBy ≠ 0 then (e.createdBy, extractFirstTwoFuncs e.stack)
    else findParent rest

/-- The contribution of goroutine `id` to the children index: `none` when
the series is empty or no entry records a parent; otherwise the parent id
together with the stored `ChildInfo`. -/
def childEntry (rs : List ParseResult) (id : Nat) : Option (Nat × ChildInfo) :=
  match seriesFor rs id with
  | [] => none
  | e0 :: tl =>
    let p := findParent (e0 :: tl)
    if p.1 = 0 then none
    else some (p.1, ⟨id, p.2, e0.ts, ((e0 :: tl).getLast (List.cons_ne_nil _ _)).ts⟩)

/-- The `ChildInfo` list stored under key `c:<host>:<pid>` (in goroutine-id
iteration order). -/
def childrenOf (rs : List ParseResult) (pid : Nat) : List ChildInfo :=
  (allIds rs).filterMap (fun id =>
    match childEntry rs id with
    | some (p, ci) => if p = pid then some ci else none
    | none => none)

/-- The parent ids owning a (nonempty) children list, i.e. the `<pid>` of
the written `c:<host>:<pid>` keys. -/
def cParents (rs : List ParseResult) : List Nat :=
  ((allIds rs).filterMap (fun id => (childEntry rs id).map (·.1))).dedup

/-! ### Function occurrences and the merged function index -/

structure FuncOccurrence where
  host : List Char
  goroutineID : Nat
  firstSeen : Int
  lastSeen : Int
deriving DecidableEq

/-- The set of function symbols appearing anywhere in the series of `id`
(the worker's `allFuncs` set; set semantics modelled by `dedup`). -/
def idSymbols (rs : List ParseResult) (id : Nat) : List (List Char) :=
  (((seriesFor rs id).map (fun e => extractFuncsFromStack e.stack)).flatten).dedup

/-- The `FuncOccurrence` recorded for goroutine `id` (first/last timestamps
of its series; only built for nonempty series). -/
def occOf (host : List Char) (rs : List ParseResult) (id : Nat) : FuncOccurrence :=
  match seriesFor rs id with
  | [] => ⟨host, id, 0, 0⟩
  | e0 :: tl => ⟨host, id, e0.ts, ((e0 :: tl).getLast (List.cons_ne_nil _ _)).ts⟩

/-- The host's occurrences for symbol `f` (the merged `funcOccurrences[f]`
map, in goroutine-id iteration order). -/
def occsFor (host : List Char) (rs : List ParseResult) (f : List Char) :
    List FuncOccurrence :=
  (allIds rs).filterMap (fun id =>
    if (seriesFor rs id).isEmpty then none
    else if f ∈ idSymbols rs id then some (occOf host rs id) else none)

/-- The host's function symbols (keys of `funcOccurrences`). -/
def hostSymbols (rs : List ParseResult) : List (List Char) :=
  (((allIds rs).map (idSymbols rs)).flatten).dedup

/-- The `f:<symbol>` portion of the Pebble store, as an association list. -/
abbrev FuncDB : Type := List (List Char × List FuncOccurrence)

/-- Read of key `f:<f>` (a missing key decodes to the empty index). -/
def lookupFD (db : FuncDB) (f : List Char) : List FuncOccurrence :=
  ((db.find? (fun kv => kv.1 == f)).map (·.2)).getD []

def setFD (f : List Char) (v : List FuncOccurrence) : FuncDB → FuncDB
  | [] => [(f, v)]
  | (k, w) :: rest => if k = f then (f, v) :: rest else (k, w) :: setFD f v rest

/-- The function-index merge of `processHost`: for every symbol of the host,
read the existing `FuncIndex`, append the new occurrences, write back. -/
def mergeHostFuncs (db : FuncDB) (host : List Char) (rs : List ParseResult) : FuncDB :=
  (hostSymbols rs).foldl (fun db' f => setFD f (lookupFD db' f ++ occsFor host rs f) db') db

/-! ### Write order of `runIndex` -/

inductive WriteEvent
  | wMetaHosts
  | wSeries (host : List Char) (id : Nat)
  | wChildren (host : List Char) (pid : Nat)
  | wStats (host : List Char)
  | wFunc (f : List Char)
  | wMetaFuncs
deriving DecidableEq

/-- Host-global metadata records: the host list `m:hosts` and the function
name list `m:funcs`. -/
def isMetaWrite : WriteEvent → Bool
  | .wMetaHosts => true
  | .wMetaFuncs => true
  | _ => false

/-- The store writes of `processHost` on its parsed results, in program
order: goroutine series, children lists, snapshot counts, function-index
merges. -/
def hostTraceRs (host : List Char) (rs : List ParseResult) : List WriteEvent :=
  (allIds rs).map (.wSeries host) ++
    (cParents rs).map (.wChildren host) ++
    [.wStats host] ++
    (hostSymbols rs).map .wFunc

/-- The store writes of `processHost`. -/
def hostTrace (host : List Char) (files : List DumpFile) : List WriteEvent :=
  hostTraceRs host (hostResults files)

/-- The store writes of `runIndex`, in program order: the host list first,
then every host's data, then the function name list. -/
def runIndexTrace (hosts : List (List Char × List DumpFile)) : List WriteEvent :=
  .wMetaHosts :: ((hosts.map (fun h => hostTrace h.1 h.2)).flatten ++ [.wMetaFuncs])

/-! ## Supporting lemmas -/

section MapLemmas

theorem lookupG_cons (k' : Nat) (v' : ParsedGoroutine) (rest : List (Nat × ParsedGoroutine))
    (id : Nat) :
    lookupG ((k', v') :: rest) id = if k' = id then some v' else lookupG rest id := by
  by_cases h : k' = id
  · subst h
    rw [lookupG, List.find?_cons_of_pos _ (by simp)]
    simp
  · rw [lookupG, List.find?_cons_of_neg _ (by simpa using h), if_neg h]
    rfl

theorem lookupG_upsert (k : Nat) (v : ParsedGoroutine) (m : List (Nat × ParsedGoroutine))
    (id : Nat) :
    lookupG (upsert k v m) id = if k = id then some v else lookupG m id := by
  induction m with
  | nil => rw [upsert, lookupG_cons]
  | cons kv rest ih =>
    obtain ⟨k', v'⟩ := kv
    rw [upsert]
    by_cases hk : k' = k
    · subst hk
      rw [if_pos rfl, lookupG_cons, lookupG_cons]
      by_cases h : k' = id <;> simp [h]
    · rw [if_neg hk, lookupG_cons, lookupG_cons, ih]
      by_cases h : k' = id
      · subst h
        rw [if_pos rfl, if_pos rfl, if_neg (fun he => hk he.symm)]
      · rw [if_neg h, if_neg h]

theorem keys_upsert (k : Nat) (v : ParsedGoroutine) (m : List (Nat × ParsedGoroutine)) :
    (upsert k v m).map (·.1) =
      if k ∈ m.map (·.1) then m.map (·.1) else m.map (·.1) ++ [k] := by
  induction m with
  | nil => simp [upsert]
  | cons kv rest ih =>
    obtain ⟨k', v'⟩ := kv
    by_cases hk : k' = k
    · subst hk
      simp [upsert]
    · simp only [upsert, if_neg hk, List.map_cons, List.mem_cons, ih]
      by_cases h : k ∈ rest.map (·.1)
      · rw [if_pos h, if_pos (Or.inr h)]
      · rw [if_neg h, if_neg (by rintro (h1 | h2); exact hk h1.symm; exact h h2)]
        simp

theorem upsert_keys_nodup (k : Nat) (v : ParsedGoroutine)
    (m : List (Nat × ParsedGoroutine)) (h : (m.map (·.1)).Nodup) :
    ((upsert k v m).map (·.1)).Nodup := by
  rw [keys_upsert]
  by_cases hmem : k ∈ m.map (·.1)
  · rw [if_pos hmem]
    exact h
  · rw [if_neg hmem]
    simp [List.nodup_append, h, hmem]

theorem lookupG_foldl_pgStep (bs : List (List Char)) (m : List (Nat × ParsedGoroutine))
    (id : Nat) :
    lookupG (bs.foldl pgStep m) id =
      match ((bs.filterMap blockParse).filter (fun kv => kv.1 == id)).getLast? with
      | some kv => some kv.2
      | none => lookupG m id := by
  induction bs generalizing m with
  | nil => rfl
  | cons b bs ih =>
    rw [List.foldl_cons, ih, List.filterMap_cons]
    cases hb : blockParse b with
    | none =>
      rw [pgStep_eq, hb]
    | some kv =>
      rw [pgStep_eq, hb]
      dsimp only
      by_cases hid : kv.1 = id
      · have hbeq : (kv.1 == id) = true := by simp [hid]
        have hf := List.filter_cons_of_pos (p := fun x : Nat × ParsedGoroutine => x.1 == id)
          (l := List.filterMap blockParse bs) (a := kv) hbeq
        rw [hf]
        cases hL : (bs.filterMap blockParse).filter (fun kv => kv.1 == id) with
        | nil =>
          rw [lookupG_upsert, if_pos hid]
          rfl
        | cons x xs =>
          rw [List.getLast?_cons_cons]
          cases hg : (x :: xs).getLast? with
          | none =>
            exact absurd (List.getLast?_eq_none_iff.mp hg) (by simp)
          | some y => rfl
      · have hf := List.filter_cons_of_neg (p := fun x : Nat × ParsedGoroutine => x.1 == id)
          (l := List.filterMap blockParse bs) (a := kv) (by simp [hid])
        rw [hf]
        cases hg : ((bs.filterMap blockParse).filter (fun kv => kv.1 == id)).getLast? with
        | none => rw [lookupG_upsert, if_neg hid]
        | some y => rfl

theorem foldl_pgStep_keys_nodup (bs : List (List Char))
    (m : List (Nat × ParsedGoroutine)) (h : (m.map (·.1)).Nodup) :
    ((bs.foldl pgStep m).map (·.1)).Nodup := by
  induction bs generalizing m with
  | nil => exact h
  | cons b bs ih =>
    rw [List.foldl_cons]
    refine ih _ ?_
    rw [pgStep_eq]
    cases blockParse b with
    | none => exact h
    | some kv => exact upsert_keys_nodup _ _ _ h

end MapLemmas

section SortLemmas

theorem insertByTs_perm (r : ParseResult) (l : List ParseResult) :
    (insertByTs r l).Perm (r :: l) := by
  induction l with
  | nil => rfl
  | cons x xs ih =>
    rw [insertByTs]
    by_cases h : r.ts ≤ x.ts
    · rw [if_pos h]
    · rw [if_neg h]
      exact (ih.cons x).trans (List.Perm.swap r x xs)

theorem sortByTs_perm (rs : List ParseResult) : (sortByTs rs).Perm rs := by
  induction rs with
  | nil => rfl
  | cons r xs ih =>
    unfold sortByTs at ih ⊢
    rw [List.foldr_cons]
    exact (insertByTs_perm r _).trans (ih.cons r)

theorem insertByTs_sorted (r : ParseResult) (l : List ParseResult)
    (h : l.Pairwise (fun a b => a.ts ≤ b.ts)) :
    (insertByTs r l).Pairwise (fun a b => a.ts ≤ b.ts) := by
  induction l with
  | nil => simp [insertByTs]
  | cons x xs ih =>
    rw [List.pairwise_cons] at h
    rw [insertByTs]
    by_cases hr : r.ts ≤ x.ts
    · rw [if_pos hr, List.pairwise_cons]
      refine ⟨?_, List.pairwise_cons.mpr h⟩
      intro y hy
      rcases List.mem_cons.mp hy with h1 | h2
      · subst h1; exact hr
      · exact le_trans hr (h.1 y h2)
    · rw [if_neg hr, List.pairwise_cons]
      refine ⟨?_, ih h.2⟩
      intro y hy
      have hy' : y ∈ r :: xs := (insertByTs_perm r xs).mem_iff.mp hy
      rcases List.mem_cons.mp hy' with h1 | h2
      · subst h1; omega
      · exact h.1 y h2

theorem sortByTs_sorted (rs : List ParseResult) :
    (sortByTs rs).Pairwise (fun a b => a.ts ≤ b.ts) := by
  induction rs with
  | nil => simp [sortByTs]
  | cons r xs ih =>
    unfold sortByTs at ih ⊢
    rw [List.foldr_cons]
    exact insertByTs_sorted r _ ih

end SortLemmas

section SeriesLemmas

theorem seriesFor_ts_map (rs : List ParseResult) (id : Nat) :
    (seriesFor rs id).map (·.ts) =
      (rs.filter (fun r => (lookupG r.goros id).isSome)).map (·.ts) := by
  induction rs with
  | nil => rfl
  | cons r rest ih =>
    rw [seriesFor, List.filterMap_cons]
    cases hl : lookupG r.goros id with
    | none =>
      rw [List.filter_cons_of_neg (by simp [hl])]
      exact ih
    | some v =>
      rw [List.filter_cons_of_pos (by simp [hl])]
      simp only [Option.map_some', List.map_cons, mkEntry]
      rw [← ih]
      rfl

theorem seriesFor_length (rs : List ParseResult) (id : Nat) :
    (seriesFor rs id).length = rs.countP (fun r => (lookupG r.goros id).isSome) := by
  induction rs with
  | nil => rfl
  | cons r rest ih =>
    rw [seriesFor, List.filterMap_cons, List.countP_cons]
    rw [seriesFor] at ih
    cases hl : lookupG r.goros id with
    | none =>
      simp only [Option.map_none', hl, Option.isSome_none]
      simpa using ih
    | some v =>
      simp only [Option.map_some', List.length_cons, hl, Option.isSome_some]
      simpa using ih

theorem length_filterMap_eq_countP {α β : Type} (f : α → Option β) (l : List α) :
    (l.filterMap f).length = l.countP (fun a => (f a).isSome) := by
  induction l with
  | nil => rfl
  | cons a rest ih =>
    rw [List.filterMap_cons, List.countP_cons]
    cases hf : f a with
    | none =>
      simp only [hf, Option.isSome_none]
      simpa using ih
    | some b =>
      simp only [hf, Option.isSome_some, List.length_cons]
      simpa using ih

end SeriesLemmas

section ChildrenLemmas

theorem findParent_eq_find? (s : List StackEntry) :
    findParent s =
      match s.find? (fun e => e.createdBy != 0) with
      | some e => (e.createdBy, extractFirstTwoFuncs e.stack)
      | none => (0, []) := by
  induction s with
  | nil => rfl
  | cons e rest ih =>
    rw [findParent]
    by_cases h : e.createdBy ≠ 0
    · rw [if_pos h, List.find?_cons_of_pos _ (by simpa using h)]
    · rw [if_neg h, List.find?_cons_of_neg _ (by simpa using h), ih]

theorem childEntry_spec {rs : List ParseResult} {id p : Nat} {ci : ChildInfo}
    (h : childEntry rs id = some (p, ci)) :
    ci.id = id ∧ p ≠ 0 ∧
    (∃ e, (seriesFor rs id).find? (fun e => e.createdBy != 0) = some e ∧
      p = e.createdBy ∧ ci.funcs = extractFirstTwoFuncs e.stack) ∧
    (∃ e0, (seriesFor rs id).head? = some e0 ∧ ci.firstSeen = e0.ts) := by
  unfold childEntry at h
  split at h
  case h_1 => simp at h
  case h_2 e0 tl hseq =>
    by_cases hp : (findParent (e0 :: tl)).1 = 0
    · rw [if_pos hp] at h
      simp at h
    · rw [if_neg hp] at h
      simp only [Option.some.injEq, Prod.mk.injEq] at h
      obtain ⟨hp1, hci⟩ := h
      subst hci
      refine ⟨rfl, by rw [← hp1]; exact hp, ?_, ⟨e0, by rw [hseq]; rfl, rfl⟩⟩
      have hf := findParent_eq_find? (e0 :: tl)
      cases hfind : (e0 :: tl).find? (fun e => e.createdBy != 0) with
      | none =>
        rw [hfind] at hf
        exact absurd (by rw [hf]) hp
      | some e =>
        rw [hfind] at hf
        refine ⟨e, by rw [hseq]; exact hfind, ?_, ?_⟩
        · rw [← hp1, hf]
        · rw [hf]

theorem mem_keys_lookupG {m : List (Nat × ParsedGoroutine)} {id : Nat}
    (h : id ∈ m.map (·.1)) : (lookupG m id).isSome = true := by
  induction m with
  | nil => simp at h
  | cons kv rest ih =>
    obtain ⟨k, v⟩ := kv
    rw [lookupG_cons]
    simp only [List.map_cons, List.mem_cons] at h
    by_cases hk : k = id
    · rw [if_pos hk]; rfl
    · rw [if_neg hk]
      rcases h with h1 | h2
      · exact absurd h1.symm hk
      · exact ih h2

theorem seriesFor_ne_nil_of_mem_allIds {rs : List ParseResult} {id : Nat}
    (h : id ∈ allIds rs) : seriesFor rs id ≠ [] := by
  rw [allIds, List.mem_dedup] at h
  rw [List.mem_flatten] at h
  obtain ⟨l, hl, hid⟩ := h
  rw [List.mem_map] at hl
  obtain ⟨r, hr, hleq⟩ := hl
  subst hleq
  have hsome := mem_keys_lookupG hid
  intro hnil
  have hlen := seriesFor_length rs id
  rw [hnil] at hlen
  simp only [List.length_nil] at hlen
  have : 0 < rs.countP (fun r => (lookupG r.goros id).isSome) :=
    List.countP_pos_iff.mpr ⟨r, hr, hsome⟩
  omega

theorem childrenOf_ids_sublist (rs : List ParseResult) (pid : Nat) :
    ((childrenOf rs pid).map (·.id)).Sublist (allIds rs) := by
  rw [childrenOf]
  generalize allIds rs = l
  induction l with
  | nil => simp
  | cons a rest ih =>
    cases hc : childEntry rs a with
    | none =>
      simp only [List.filterMap_cons, hc]
      exact ih.cons _
    | some q =>
      obtain ⟨p, ci⟩ := q
      simp only [List.filterMap_cons, hc]
      by_cases hp : p = pid
      · rw [if_pos hp]
        simp only [List.map_cons]
        have : ci.id = a := (childEntry_spec hc).1
        rw [this]
        exact ih.cons₂ _
      · rw [if_neg hp]
        exact ih.cons _

end ChildrenLemmas

section FuncDBLemmas

theorem lookupFD_cons (k : List Char) (w : List FuncOccurrence) (rest : FuncDB)
    (s : List Char) :
    lookupFD ((k, w) :: rest) s = if k = s then w else lookupFD rest s := by
  by_cases h : k = s
  · subst h
    rw [lookupFD, List.find?_cons_of_pos _ (by simp), if_pos rfl]
    rfl
  · rw [lookupFD, List.find?_cons_of_neg _ (by simpa using h), if_neg h]
    rfl

theorem lookupFD_setFD (f : List Char) (v : List FuncOccurrence) (db : FuncDB)
    (s : List Char) :
    lookupFD (setFD f v db) s = if s = f then v else lookupFD db s := by
  induction db with
  | nil =>
    rw [setFD, lookupFD_cons]
    by_cases h : s = f
    · rw [if_pos h, if_pos h.symm]
    · rw [if_neg h, if_neg (fun he => h he.symm)]
  | cons kv rest ih =>
    obtain ⟨k, w⟩ := kv
    rw [setFD]
    by_cases hk : k = f
    · subst hk
      rw [if_pos rfl, lookupFD_cons, lookupFD_cons]
      by_cases h : k = s
      · rw [if_pos h, if_pos h.symm]
      · rw [if_neg h, if_neg (fun he => h he.symm), if_neg h]
    · rw [if_neg hk, lookupFD_cons, lookupFD_cons, ih]
      by_cases h : k = s
      · have h2 : ¬s = f := fun he => hk (h.trans he)
        rw [if_pos h, if_neg h2, if_pos h]
      · rw [if_neg h, if_neg h]

theorem foldl_merge_lookup (host : List Char) (rs : List ParseResult)
    (syms : List (List Char)) (db : FuncDB) (f : List Char) (hnd : syms.Nodup) :
    lookupFD (syms.foldl (fun db' s => setFD s (lookupFD db' s ++ occsFor host rs s) db') db) f =
      if f ∈ syms then lookupFD db f ++ occsFor host rs f else lookupFD db f := by
  induction syms generalizing db with
  | nil => simp
  | cons s rest ih =>
    rw [List.nodup_cons] at hnd
    rw [List.foldl_cons, ih _ hnd.2]
    by_cases hmem : f ∈ rest
    · have hfs : f ≠ s := fun he => hnd.1 (he ▸ hmem)
      rw [if_pos hmem, if_pos (List.mem_cons.mpr (Or.inr hmem)), lookupFD_setFD,
        if_neg hfs]
    · rw [if_neg hmem, lookupFD_setFD]
      by_cases hfs : f = s
      · rw [if_pos hfs, if_pos (List.mem_cons.mpr (Or.inl hfs)), hfs]
      · rw [if_neg hfs, if_neg (by simp [hfs, hmem])]

theorem mergeHostFuncs_lookup (db : FuncDB) (host : List Char)
    (rs : List ParseResult) (f : List Char) :
    lookupFD (mergeHostFuncs db host rs) f =
      if f ∈ hostSymbols rs then lookupFD db f ++ occsFor host rs f
      else lookupFD db f := by
  rw [mergeHostFuncs]
  exact foldl_merge_lookup host rs _ db f (by rw [hostSymbols]; exact List.nodup_dedup _)

end FuncDBLemmas

/-! ## Claim theorems -/

/-- **C5**: for every persisted `TaskTimeSeries`, the `StackEntry` timestamps
are in non-decreasing order, and a task that appears in `N` successfully
parsed dumps of its host yields a series of exactly `N` entries (no gap
marker exists in the model, so nothing else is recorded). -/
theorem C5_series_monotone_and_counted (files : List DumpFile) (id : Nat) :
    List.Sorted (· ≤ ·) ((seriesFor (hostResults files) id).map (·.ts)) ∧
    (seriesFor (hostResults files) id).length =
      (hostResults files).countP (fun r => (lookupG r.goros id).isSome) := by
  constructor
  · rw [seriesFor_ts_map]
    rw [List.Sorted, List.pairwise_map]
    have hs : (hostResults files).Pairwise (fun a b => a.ts ≤ b.ts) :=
      sortByTs_sorted _
    exact List.Pairwise.sublist (List.filter_sublist _) hs
  · exact seriesFor_length _ _

/-- **C8**: per host, the persisted `SnapshotCounts` arrays have equal
length, with one `(timestamp, count)` pair per successfully parsed dump
file (count = size of that dump's parsed-task map), and the timestamps are
ascending. -/
theorem C8_snapshot_counts_shape (files : List DumpFile) :
    (statsTimestamps (hostResults files)).length =
      (statsCounts (hostResults files)).length ∧
    (statsTimestamps (hostResults files)).length =
      files.countP (fun f => (parseSnapshotFile f).isSome) ∧
    List.Sorted (· ≤ ·) (statsTimestamps (hostResults files)) ∧
    ((statsTimestamps (hostResults files)).zip (statsCounts (hostResults files))).Perm
      ((files.filterMap parseSnapshotFile).map (fun r => (r.ts, r.goros.length))) := by
  refine ⟨by simp [statsTimestamps, statsCounts], ?_, ?_, ?_⟩
  · rw [statsTimestamps, List.length_map, hostResults, (sortByTs_perm _).length_eq]
    exact length_filterMap_eq_countP _ _
  · rw [statsTimestamps, List.Sorted, List.pairwise_map]
    exact sortByTs_sorted _
  · rw [statsTimestamps, statsCounts, List.zip_map']
    exact (sortByTs_perm _).map _

/-- **C10**: the parser returns at most one `ParsedTask` per task id; when a
dump contains several blocks with the same decimal id, the block occurring
later in the text determines the stored record, and a dump contributes
exactly one `StackEntry` for any id it contains. -/
theorem C10_one_record_per_id_last_wins (data : List Char) :
    ((parseGoroutines data).map (·.1)).Nodup ∧
    (∀ id, lookupG (parseGoroutines data) id =
      (((blocksOf data).filterMap blockParse).filter
        (fun kv => kv.1 == id)).getLast?.map (·.2)) ∧
    (∀ ts id, (seriesFor [⟨ts, parseGoroutines data⟩] id).length =
      if (lookupG (parseGoroutines data) id).isSome = true then 1 else 0) := by
  refine ⟨foldl_pgStep_keys_nodup _ [] (by simp), ?_, ?_⟩
  · intro id
    rw [parseGoroutines, lookupG_foldl_pgStep]
    cases hg : (((blocksOf data).filterMap blockParse).filter
        (fun kv => kv.1 == id)).getLast? with
    | none => rfl
    | some kv => rfl
  · intro ts id
    rw [seriesFor_length]
    simp [List.countP_cons]

/-- A dump whose only goroutine (id 7) was created by goroutine 99, which
itself appears in no block. -/
def exDumpA : List Char :=
  ("goroutine 7 [running]:\npkg.f()\n\t/a/b.go:1 +0x10\n" ++
   "created by pkg.main in goroutine 99\n\t/a/c.go:2 +0x5\n").data

def exFilesA : List DumpFile := [⟨some 1000, some exDumpA⟩]

/-- **C6**: for every `(host, parent-id) → ChildInfo` entry of the children
index, the child's stored series contains at least one `StackEntry` whose
parent id equals the key's parent id, and every child id appears at most
once per children list. -/
theorem C6_children_symmetry (files : List DumpFile) (pid : Nat) (ci : ChildInfo)
    (h : ci ∈ childrenOf (hostResults files) pid) :
    (∃ e ∈ seriesFor (hostResults files) ci.id, e.createdBy = pid) ∧
    ((childrenOf (hostResults files) pid).map (·.id)).Nodup := by
  constructor
  · rw [childrenOf, List.mem_filterMap] at h
    obtain ⟨id, hid, hstep⟩ := h
    cases hc : childEntry (hostResults files) id with
    | none => rw [hc] at hstep; simp at hstep
    | some q =>
      obtain ⟨p, ci'⟩ := q
      rw [hc] at hstep
      dsimp only at hstep
      by_cases hp : p = pid
      · rw [if_pos hp] at hstep
        simp only [Option.some.injEq] at hstep
        subst hstep
        obtain ⟨hciid, hpne, ⟨e, hfind, hpe, hfuncs⟩, -⟩ := childEntry_spec hc
        refine ⟨e, ?_, ?_⟩
        · rw [hciid]
          exact List.mem_of_find?_eq_some hfind
        · rw [← hp, hpe]
      · rw [if_neg hp] at hstep
        simp at hstep
  · exact List.Nodup.sublist (childrenOf_ids_sublist _ _) (List.nodup_dedup _)

theorem C6_children_symmetry_witness :
    (∃ e ∈ seriesFor (hostResults exFilesA) 7, e.createdBy = 99) ∧
    ((childrenOf (hostResults exFilesA) 99).map (·.id)).Nodup := by
  have h := C6_children_symmetry exFilesA 99
    ⟨7, "pkg.f".data, 1000, 1000⟩ (by decide)
  simpa using h

/-- **C7**: the function-index merge of a host preserves every occurrence
stored before the merge, and adds one occurrence per goroutine id of the
host whose series mentions the symbol. -/
theorem C7_func_index_merge_preserves (db : FuncDB) (host : List Char)
    (files : List DumpFile) (f : List Char) :
    (∀ occ ∈ lookupFD db f,
      occ ∈ lookupFD (mergeHostFuncs db host (hostResults files)) f) ∧
    (∀ id ∈ allIds (hostResults files), f ∈ idSymbols (hostResults files) id →
      occOf host (hostResults files) id ∈
        lookupFD (mergeHostFuncs db host (hostResults files)) f) := by
  rw [mergeHostFuncs_lookup]
  constructor
  · intro occ hocc
    by_cases hmem : f ∈ hostSymbols (hostResults files)
    · rw [if_pos hmem]
      exact List.mem_append_left _ hocc
    · rw [if_neg hmem]
      exact hocc
  · intro id hid hsym
    have hmem : f ∈ hostSymbols (hostResults files) := by
      rw [hostSymbols, List.mem_dedup, List.mem_flatten]
      exact ⟨idSymbols (hostResults files) id, List.mem_map_of_mem _ hid, hsym⟩
    rw [if_pos hmem]
    refine List.mem_append_right _ ?_
    rw [occsFor, List.mem_filterMap]
    refine ⟨id, hid, ?_⟩
    have hne := seriesFor_ne_nil_of_mem_allIds hid
    rw [if_neg (by simp [List.isEmpty_iff, hne]), if_pos hsym]

theorem C7_func_index_merge_witness :
    occOf "h".data (hostResults exFilesA) 7 ∈
      lookupFD (mergeHostFuncs [] "h".data (hostResults exFilesA)) "pkg.f".data :=
  (C7_func_index_merge_preserves [] "h".data exFilesA "pkg.f".data).2 7
    (by decide) (by decide)

/-- **C9**: the children index does not require the parent to be an observed
task: for the corpus `exFilesA` the rebuild writes the children key for
parent 99 while writing no series key for 99. -/
theorem C9_unobserved_parent :
    WriteEvent.wChildren "h".data 99 ∈ hostTrace "h".data exFilesA ∧
    WriteEvent.wSeries "h".data 99 ∉ hostTrace "h".data exFilesA := by
  decide

/-! ### C1: the entry-point label -/

/-- A host where goroutine 7's earliest dump has no `created by` line
(and entry point `pkg.a`), while a later dump carries the parent link and a
different entry point (`pkg.b`). -/
def exDumpB1 : List Char := "goroutine 7 [running]:\npkg.a()\n\t/s/a.go:1 +0x5\n".data

def exDumpB2 : List Char :=
  ("goroutine 7 [running]:\npkg.b()\n\t/s/b.go:2 +0x5\n" ++
   "created by pkg.main in goroutine 5\n\t/s/m.go:3 +0x1\n").data

def exFilesB : List DumpFile := [⟨some 1000, some exDumpB1⟩, ⟨some 1060, some exDumpB2⟩]

/-- **C1**, counterexample: the stored label is taken from the stack of the
entry where the parent link was found (`pkg.b`), not from the child's
earliest entry (`pkg.a`), so the claimed equation fails on `exFilesB`. -/
theorem C1_label_counterexample :
    (childEntry (hostResults exFilesB) 7).map (fun q => q.2.funcs) =
      some "pkg.b".data ∧
    ((seriesFor (hostResults exFilesB) 7).head?.map
      (fun e => extractFirstTwoFuncs e.stack)) = some "pkg.a".data ∧
    ("pkg.b".data : List Char) ≠ "pkg.a".data := by
  decide

/-- **C1**, amended: the stored `ChildInfo` label equals
`extractFirstTwoFuncs` applied to the stack of the first series entry whose
parent id is non-zero (the entry that also fixes the parent id) — not
necessarily the earliest entry. -/
theorem C1_label_from_parent_entry (files : List DumpFile) (id p : Nat)
    (ci : ChildInfo) (h : childEntry (hostResults files) id = some (p, ci)) :
    ∃ e, (seriesFor (hostResults files) id).find? (fun x => x.createdBy != 0) = some e ∧
      p = e.createdBy ∧ ci.funcs = extractFirstTwoFuncs e.stack ∧ ci.id = id := by
  obtain ⟨hid, -, ⟨e, hf, hp, hfn⟩, -⟩ := childEntry_spec h
  exact ⟨e, hf, hp, hfn, hid⟩

theorem C1_label_witness :
    ∃ e, (seriesFor (hostResults exFilesB) 7).find? (fun x => x.createdBy != 0) = some e ∧
      5 = e.createdBy ∧ ("pkg.b".data : List Char) = extractFirstTwoFuncs e.stack ∧
      (7 : Nat) = 7 := by
  have h := C1_label_from_parent_entry exFilesB 7 5
    ⟨7, "pkg.b".data, 1000, 1060⟩ (by decide)
  simpa using h

/-! ### C2: idempotence of the normalizer -/

/-- **C2**, counterexample: on a line carrying two `in goroutine N` tails the
`created by` rewrite fires again on its own output, so `cleanStackLine` is
not idempotent. -/
theorem C2_idempotence_counterexample :
    cleanStackLine (cleanStackLine "created by a in goroutine 1 in goroutine 2".data) ≠
      cleanStackLine "created by a in goroutine 1 in goroutine 2".data := by
  decide

/-- **C2**, amended: `cleanStackLine` is idempotent on every line whose
normalized form is not rewritten further by the `created by` rule (the
offset strip and the pointer rewrite can never fire again on normalizer
output). -/
theorem C2_idempotent_when_created_by_stable (l : List Char)
    (h : createdByReplace (cleanStackLine l) = cleanStackLine l) :
    cleanStackLine (cleanStackLine l) = cleanStackLine l := by
  have hfree : hexPtrFree (cleanStackLine l) = true :=
    hexPtrFree_hexPtrReplace (createdByReplace (stripOffset l))
  show hexPtrReplace (createdByReplace (stripOffset (cleanStackLine l))) = cleanStackLine l
  rw [stripOffset_of_hexPtrFree hfree, h, hexPtrReplace_of_hexPtrFree hfree]

theorem C2_idempotent_witness :
    cleanStackLine (cleanStackLine "created by pkg.f in goroutine 12".data) =
      cleanStackLine "created by pkg.f in goroutine 12".data :=
  C2_idempotent_when_created_by_stable _ (by decide)

/-! ### C3: order of metadata writes -/

/-- The order property claimed of the rebuild: after any host-global
metadata write, only metadata writes follow (i.e. no metadata record is
written before the last bulk data record). -/
def metaWritesLast (t : List WriteEvent) : Prop :=
  ∀ t1 e t2, t = t1 ++ e :: t2 → isMetaWrite e = true → ∀ x ∈ t2, isMetaWrite x = true

/-- **C3**, counterexample: the host-list record `m:hosts` is written before
any per-host data, so on a corpus with one host and one dump the metadata
write at position 0 precedes the bulk data writes. -/
theorem C3_metadata_not_last_counterexample :
    ¬ metaWritesLast (runIndexTrace [("h".data, exFilesA)]) := by
  intro h
  have hx := h [] WriteEvent.wMetaHosts
    ((([("h".data, exFilesA)].map (fun q => hostTrace q.1 q.2)).flatten) ++
      [WriteEvent.wMetaFuncs])
    rfl rfl (WriteEvent.wSeries "h".data 7) (by decide)
  exact absurd hx (by decide)

/-- **C3**, amended: the function-name list `m:funcs` is written last, after
every per-host data record; the host list `m:hosts` is written first, before
any per-host data record (not after them). -/
theorem C3_funcs_metadata_last (hosts : List (List Char × List DumpFile)) :
    ∃ body, runIndexTrace hosts =
        WriteEvent.wMetaHosts :: (body ++ [WriteEvent.wMetaFuncs]) ∧
      ∀ e ∈ body, isMetaWrite e = false := by
  refine ⟨(hosts.map (fun q : List Char × List DumpFile => hostTrace q.1 q.2)).flatten,
    rfl, ?_⟩
  intro e he
  rw [List.mem_flatten] at he
  obtain ⟨l, hl, hel⟩ := he
  rw [List.mem_map] at hl
  obtain ⟨q, hq, rfl⟩ := hl
  rw [hostTrace, hostTraceRs] at hel
  rcases List.mem_append.mp hel with h123 | h4
  · rcases List.mem_append.mp h123 with h12 | h3
    · rcases List.mem_append.mp h12 with h1 | h2
      · obtain ⟨id, -, rfl⟩ := List.mem_map.mp h1
        rfl
      · obtain ⟨pid, -, rfl⟩ := List.mem_map.mp h2
        rfl
    · rw [List.mem_singleton] at h3
      subst h3
      rfl
  · obtain ⟨f, -, rfl⟩ := List.mem_map.mp h4
    rfl

theorem C3_funcs_metadata_last_witness :
    ∃ body, runIndexTrace [("h".data, exFilesA)] =
        WriteEvent.wMetaHosts :: (body ++ [WriteEvent.wMetaFuncs]) ∧
      ∀ e ∈ body, isMetaWrite e = false :=
  C3_funcs_metadata_last [("h".data, exFilesA)]

/-! ### C4: normalization is insensitive to pointer values, frame offsets
and parent-task numbers

The claim quantifies over pairs of stack lines of the dump format.  The
format's three line shapes are modelled by `SLine` (symbol line with
hex-pointer arguments, location line with a trailing frame offset,
`created by` line with a parent-goroutine number); two lines "differ only
in" pointers / offsets / task numbers when they share a shape
(`sameShape`). -/

section C4Lemmas

/-- A character at which no `hexPtrRe` match can start, and which stops a
running hex digit scan. -/
def sepChar (c : Char) : Prop := isHexDigit c = false ∧ c ≠ 'x'

theorem hexStarWsStar_of_all_hex {t : List Char}
    (h : ∀ c ∈ t, isHexDigit c = true) : hexStarWsStar t = true := by
  induction t with
  | nil => rfl
  | cons c rest ih =>
    have hc := h c (List.mem_cons_self c rest)
    rw [hexStarWsStar, hc]
    simp only [if_true]
    exact ih (fun x hx => h x (List.mem_cons_of_mem c hx))

theorem stripOffset_of_no_plus {l : List Char} (h : ∀ c ∈ l, c ≠ '+') :
    stripOffset l = l := by
  induction l with
  | nil => rfl
  | cons a rest ih =>
    rw [stripOffset]
    have hm : matchOffsetSuffix (a :: rest) = false := by
      cases hb : matchOffsetSuffix (a :: rest)
      · rfl
      · rw [matchOffsetSuffix_iff] at hb
        obtain ⟨d, t, he, -, -⟩ := hb
        injection he with h1 hdum
        exact absurd h1 (h a (List.mem_cons_self a rest))
    simp only [hm, Bool.false_eq_true, if_false]
    rw [ih (fun x hx => h x (List.mem_cons_of_mem a hx))]

theorem stripOffset_concat_offset {u off : List Char} {d : Char}
    (hu : ∀ c ∈ u, c ≠ '+') (hd : isHexDigit d = true)
    (hoff : ∀ c ∈ off, isHexDigit c = true) :
    stripOffset (u ++ '+' :: '0' :: 'x' :: d :: off) = u := by
  induction u with
  | nil =>
    rw [List.nil_append, stripOffset]
    have hm : matchOffsetSuffix ('+' :: '0' :: 'x' :: d :: off) = true :=
      (matchOffsetSuffix_iff _).mpr ⟨d, off, rfl, hd, hexStarWsStar_of_all_hex hoff⟩
    rw [hm]
    simp
  | cons a u' ih =>
    rw [List.cons_append, stripOffset]
    have hm : matchOffsetSuffix (a :: (u' ++ '+' :: '0' :: 'x' :: d :: off)) = false := by
      cases hb : matchOffsetSuffix (a :: (u' ++ '+' :: '0' :: 'x' :: d :: off))
      · rfl
      · rw [matchOffsetSuffix_iff] at hb
        obtain ⟨e, t, he, -, -⟩ := hb
        injection he with h1 hdum
        exact absurd h1 (hu a (List.mem_cons_self a u'))
    simp only [hm, Bool.false_eq_true, if_false]
    rw [ih (fun x hx => hu x (List.mem_cons_of_mem a hx))]

theorem hexStarWsStar_getLast {t : List Char} (h : hexStarWsStar t = true) {c : Char}
    (hc : t.getLast? = some c) : isHexDigit c = true ∨ isWsRe c = true := by
  induction t with
  | nil => simp at hc
  | cons a rest ih =>
    rw [hexStarWsStar] at h
    by_cases ha : isHexDigit a = true
    · rw [ha] at h
      simp only [if_true] at h
      cases rest with
      | nil =>
        simp only [List.getLast?_singleton, Option.some.injEq] at hc
        subst hc
        exact Or.inl ha
      | cons b rest' =>
        rw [List.getLast?_cons_cons] at hc
        exact ih h hc
    · rw [Bool.not_eq_true] at ha
      rw [ha] at h
      simp only [Bool.false_eq_true, if_false] at h
      have hmem : c ∈ a :: rest := by
        obtain ⟨hne2, hceq⟩ := List.mem_getLast?_eq_getLast (Option.mem_def.mpr hc)
        rw [hceq]
        exact List.getLast_mem hne2
      exact Or.inr (List.all_eq_true.mp h c hmem)

theorem stripOffset_of_getLast {l : List Char} {c : Char} (hc : l.getLast? = some c)
    (h1 : isHexDigit c = false) (h2 : isWsRe c = false) : stripOffset l = l := by
  induction l with
  | nil => rfl
  | cons a rest ih =>
    rw [stripOffset]
    have hm : matchOffsetSuffix (a :: rest) = false := by
      cases hb : matchOffsetSuffix (a :: rest)
      · rfl
      · rw [matchOffsetSuffix_iff] at hb
        obtain ⟨d, t, he, hd, ht⟩ := hb
        rw [he] at hc
        cases t with
        | nil =>
          simp only [List.getLast?_cons_cons, List.getLast?_singleton,
            Option.some.injEq] at hc
          subst hc
          rw [hd] at h1
          exact absurd h1 (by simp)
        | cons x xs =>
          simp only [List.getLast?_cons_cons] at hc
          rcases hexStarWsStar_getLast ht hc with hh | hw
          · rw [hh] at h1
            exact absurd h1 (by simp)
          · rw [hw] at h2
            exact absurd h2 (by simp)
    simp only [hm, Bool.false_eq_true, if_false]
    cases rest with
    | nil => rfl
    | cons b rest' =>
      rw [List.getLast?_cons_cons] at hc
      rw [ih hc]

theorem sepChar_ne_zero {s : Char} (hs : sepChar s) : s ≠ '0' := by
  intro he
  subst he
  exact absurd hs.1 (by simp [isHexDigit])

theorem hexPtrReplace_sep_cons {s : Char} (hs : sepChar s) (v : List Char) :
    hexPtrReplace (s :: v) = s :: hexPtrReplace v := by
  rw [hexPtrReplace_cons, startsHexPtr_of_ne (sepChar_ne_zero hs)]
  simp

theorem hexPtrFree_tail {c : Char} {u : List Char} (h : hexPtrFree (c :: u) = true) :
    hexPtrFree u = true := by
  rw [hexPtrFree] at h
  exact (Bool.and_eq_true _ _ |>.mp h).2

theorem hexPtrReplace_append_sep {u : List Char} {s : Char} (hu : hexPtrFree u = true)
    (hs : sepChar s) (v : List Char) :
    hexPtrReplace (u ++ s :: v) = u ++ s :: hexPtrReplace v := by
  induction u with
  | nil =>
    rw [List.nil_append, List.nil_append]
    exact hexPtrReplace_sep_cons hs v
  | cons c u' ih =>
    rw [List.cons_append, hexPtrReplace_cons]
    have hguard : startsHexPtr (c :: (u' ++ s :: v)) = false := by
      cases hb : startsHexPtr (c :: (u' ++ s :: v))
      · rfl
      · exfalso
        rw [startsHexPtr_iff] at hb
        obtain ⟨d, t, he, hd⟩ := hb
        injection he with h0 hrest
        subst h0
        cases u' with
        | nil =>
          rw [List.nil_append] at hrest
          injection hrest with hx hdum
          exact hs.2 hx
        | cons a u'' =>
          rw [List.cons_append] at hrest
          injection hrest with ha hrest2
          subst ha
          cases u'' with
          | nil =>
            rw [List.nil_append] at hrest2
            injection hrest2 with hsd hdum
            rw [hsd] at hs
            exact absurd hd (by simp [hs.1])
          | cons b u''' =>
            rw [List.cons_append] at hrest2
            injection hrest2 with hb2 hdum
            subst hb2
            rw [hexPtrFree] at hu
            have := (Bool.and_eq_true _ _ |>.mp hu).1
            rw [(startsHexPtr_iff _).mpr ⟨b, u''', rfl, hd⟩] at this
            simp at this
    rw [hguard]
    simp only [Bool.false_eq_true, if_false]
    rw [ih (hexPtrFree_tail hu), List.cons_append]

/-- A list whose head (if any) cannot continue a hex run nor be the optional
`?` of `hexPtrRe`. -/
def hexStop (v : List Char) : Prop :=
  ∀ c, v.head? = some c → isHexDigit c = false ∧ c ≠ '?'

theorem dropWhile_hex_append {h v : List Char} (hh : ∀ c ∈ h, isHexDigit c = true)
    (hv : hexStop v) : (h ++ v).dropWhile isHexDigit = v := by
  induction h with
  | nil =>
    rw [List.nil_append]
    cases v with
    | nil => rfl
    | cons c w =>
      rw [List.dropWhile_cons, (hv c rfl).1]
      simp
  | cons c h' ih =>
    rw [List.cons_append, List.dropWhile_cons, hh c (List.mem_cons_self c h')]
    simp only [if_true]
    exact ih (fun x hx => hh x (List.mem_cons_of_mem c hx))

theorem dropQ_of_hexStop {v : List Char} (hv : hexStop v) : dropQ v = v := by
  unfold dropQ
  cases v with
  | nil => simp
  | cons c w =>
    have := (hv c rfl).2
    simp [this]

theorem hexPtrReplace_arg {h v : List Char} (hne : h ≠ [])
    (hh : ∀ c ∈ h, isHexDigit c = true) (hv : hexStop v) :
    hexPtrReplace ('0' :: 'x' :: (h ++ v)) = '.' :: '.' :: '.' :: hexPtrReplace v := by
  cases h with
  | nil => exact absurd rfl hne
  | cons d h' =>
    rw [List.cons_append, hexPtrReplace_cons,
      (startsHexPtr_iff _).mpr ⟨d, h' ++ v, rfl, hh d (List.mem_cons_self d h')⟩]
    simp only [if_true]
    have ha : afterHexPtr ('x' :: d :: (h' ++ v)) = v := by
      unfold afterHexPtr
      rw [List.drop_one, List.tail_cons, show d :: (h' ++ v) = (d :: h') ++ v from rfl,
        dropWhile_hex_append hh hv, dropQ_of_hexStop hv]
    rw [ha]

end C4Lemmas

section C4CreatedBy

theorem matchCreatedByAt_isPrefix {l : List Char} {p : List Char × List Char}
    (h : matchCreatedByAt l = some p) : cbLit.isPrefixOf l = true := by
  unfold matchCreatedByAt at h
  split at h
  case isTrue hp => exact hp
  case isFalse => simp at h

theorem containsSub_cons (pat : List Char) (c : Char) (rest : List Char) :
    containsSub pat (c :: rest) = (pat.isPrefixOf (c :: rest) || containsSub pat rest) := by
  rw [containsSub, containsSub]
  simp [List.tails]

theorem createdByReplace_of_not_contains {l : List Char}
    (h : containsSub cbLit l = false) : createdByReplace l = l := by
  induction l with
  | nil => rfl
  | cons c rest ih =>
    rw [createdByReplace_cons]
    cases hm : matchCreatedByAt (c :: rest) with
    | some p =>
      have hp := matchCreatedByAt_isPrefix hm
      rw [containsSub_cons, hp] at h
      simp at h
    | none =>
      rw [containsSub_cons] at h
      rw [ih (Bool.or_eq_false_iff.mp h).2]

theorem createdByReplace_eq_of_match {l : List Char} {p : List Char × List Char}
    (h : matchCreatedByAt l = some p) :
    createdByReplace l = p.1 ++ createdByReplace p.2 := by
  cases l with
  | nil => simp [matchCreatedByAt, cbLit] at h
  | cons c rest =>
    rw [createdByReplace_cons, h]

theorem isDigit_beq_false {g c : Char} (hg : g.isDigit = true) (hc : c.isDigit = false) :
    (c == g) = false := by
  cases hb : c == g
  · rfl
  · have he : c = g := by simpa using hb
    subst he
    rw [hg] at hc
    simp at hc

theorem lastGoro_all_digits {gid : List Char} (h : ∀ c ∈ gid, Char.isDigit c = true) :
    lastGoro gid = none := by
  induction gid with
  | nil => rfl
  | cons g rest ih =>
    rw [lastGoro, ih (fun c hc => h c (List.mem_cons_of_mem g hc))]
    have hig : igAt (g :: rest) = false := by
      unfold igAt
      have hpre : igLit.isPrefixOf (g :: rest) = false := by
        rw [show igLit = ' ' :: "in goroutine ".data from rfl]
        simp only [List.isPrefixOf]
        rw [isDigit_beq_false (h g (List.mem_cons_self g rest)) (by decide)]
        rfl
      rw [hpre]
      rfl
    rw [hig]
    rfl

theorem lastGoro_step {c : Char} {rest : List Char} (h : lastGoro rest = none)
    (hig : igAt (c :: rest) = false) : lastGoro (c :: rest) = none := by
  rw [lastGoro, h, hig]
  rfl

theorem igAt_space_digits {gid : List Char} (h : ∀ c ∈ gid, Char.isDigit c = true) :
    igAt (' ' :: gid) = false := by
  cases gid with
  | nil => rfl
  | cons g rest =>
    unfold igAt
    have hpre : igLit.isPrefixOf (' ' :: g :: rest) = false := by
      rw [show igLit = ' ' :: 'i' :: "n goroutine ".data from rfl]
      simp only [List.isPrefixOf]
      rw [isDigit_beq_false (h g (List.mem_cons_self g rest)) (by decide)]
      simp
    rw [hpre]
    rfl

theorem lastGoro_inGoro_digits {gid : List Char} (h : ∀ c ∈ gid, Char.isDigit c = true) :
    lastGoro ("in goroutine ".data ++ gid) = none := by
  have e1 : lastGoro (' ' :: gid) = none :=
    lastGoro_step (lastGoro_all_digits h) (igAt_space_digits h)
  have e2 : lastGoro ('e' :: ' ' :: gid) = none := lastGoro_step e1 (by rfl)
  have e3 : lastGoro ('n' :: 'e' :: ' ' :: gid) = none := lastGoro_step e2 (by rfl)
  have e4 : lastGoro ('i' :: 'n' :: 'e' :: ' ' :: gid) = none := lastGoro_step e3 (by rfl)
  have e5 : lastGoro ('t' :: 'i' :: 'n' :: 'e' :: ' ' :: gid) = none :=
    lastGoro_step e4 (by rfl)
  have e6 : lastGoro ('u' :: 't' :: 'i' :: 'n' :: 'e' :: ' ' :: gid) = none :=
    lastGoro_step e5 (by rfl)
  have e7 : lastGoro ('o' :: 'u' :: 't' :: 'i' :: 'n' :: 'e' :: ' ' :: gid) = none :=
    lastGoro_step e6 (by rfl)
  have e8 : lastGoro ('r' :: 'o' :: 'u' :: 't' :: 'i' :: 'n' :: 'e' :: ' ' :: gid) = none :=
    lastGoro_step e7 (by rfl)
  have e9 : lastGoro ('o' :: 'r' :: 'o' :: 'u' :: 't' :: 'i' :: 'n' :: 'e' :: ' ' :: gid)
      = none := lastGoro_step e8 (by rfl)
  have e10 : lastGoro
      ('g' :: 'o' :: 'r' :: 'o' :: 'u' :: 't' :: 'i' :: 'n' :: 'e' :: ' ' :: gid) = none :=
    lastGoro_step e9 (by rfl)
  have e11 : lastGoro
      (' ' :: 'g' :: 'o' :: 'r' :: 'o' :: 'u' :: 't' :: 'i' :: 'n' :: 'e' :: ' ' :: gid)
      = none := lastGoro_step e10 (by rfl)
  have e12 : lastGoro
      ('n' :: ' ' :: 'g' :: 'o' :: 'r' :: 'o' :: 'u' :: 't' :: 'i' :: 'n' :: 'e' :: ' ' :: gid)
      = none := lastGoro_step e11 (by rfl)
  exact lastGoro_step e12 (by rfl)

theorem lastGoro_tail {x gid : List Char} (hgne : gid ≠ [])
    (h : ∀ c ∈ gid, Char.isDigit c = true) :
    lastGoro (x ++ (igLit ++ gid)) = some (x, []) := by
  induction x with
  | nil =>
    rw [List.nil_append]
    show lastGoro (' ' :: ("in goroutine ".data ++ gid)) = some ([], [])
    rw [lastGoro, lastGoro_inGoro_digits h]
    have hig : igAt (' ' :: ("in goroutine ".data ++ gid)) = true := by
      unfold igAt
      have hpre : igLit.isPrefixOf (' ' :: ("in goroutine ".data ++ gid)) = true := by
        have : (' ' :: ("in goroutine ".data ++ gid)) = igLit ++ gid := by
          rw [show igLit = ' ' :: "in goroutine ".data from rfl]
          simp
        rw [this]
        exact List.isPrefixOf_iff_prefix.mpr (List.prefix_append igLit gid)
      rw [hpre]
      have hdrop : (' ' :: ("in goroutine ".data ++ gid)).drop 14 = gid := by
        show ('i' :: 'n' :: ' ' :: 'g' :: 'o' :: 'r' :: 'o' :: 'u' :: 't' :: 'i' :: 'n' ::
          'e' :: ' ' :: gid).drop 13 = gid
        simp
      rw [hdrop]
      cases gid with
      | nil => exact absurd rfl hgne
      | cons g rest =>
        simp only [List.head?_cons, Option.map_some', Option.getD_some, Bool.true_and]
        exact h g (List.mem_cons_self g rest)
    rw [hig]
    simp only [if_true, Option.some.injEq, Prod.mk.injEq, true_and]
    have hdrop : (' ' :: ("in goroutine ".data ++ gid)).drop 14 = gid := by
      show ('i' :: 'n' :: ' ' :: 'g' :: 'o' :: 'r' :: 'o' :: 'u' :: 't' :: 'i' :: 'n' ::
        'e' :: ' ' :: gid).drop 13 = gid
      simp
    rw [hdrop]
    exact List.dropWhile_eq_nil_iff.mpr (fun x hx => h x hx)
  | cons c x' ih =>
    rw [List.cons_append, lastGoro, ih]

theorem createdByReplace_createdLine {name gid : List Char} (hn : name ≠ [])
    (hgne : gid ≠ []) (hg : ∀ c ∈ gid, Char.isDigit c = true) :
    createdByReplace (cbLit ++ (name ++ (igLit ++ gid))) = cbLit ++ name := by
  cases name with
  | nil => exact absurd rfl hn
  | cons n0 nr =>
    have hm : matchCreatedByAt (cbLit ++ ((n0 :: nr) ++ (igLit ++ gid))) =
        some (cbLit ++ n0 :: nr, []) := by
      unfold matchCreatedByAt
      rw [if_pos (List.isPrefixOf_iff_prefix.mpr (List.prefix_append cbLit _))]
      have hdrop : (cbLit ++ ((n0 :: nr) ++ (igLit ++ gid))).drop 11 =
          n0 :: (nr ++ (igLit ++ gid)) := by
        rw [show (11 : Nat) = cbLit.length from rfl, List.drop_left]
        simp
      rw [hdrop]
      dsimp only
      rw [lastGoro_tail hgne hg]
      rfl
    rw [createdByReplace_eq_of_match hm]
    simp [createdByReplace_nil]

end C4CreatedBy

/-- A stack line of the dump format: a symbol line with hex-pointer
arguments, a location line with a trailing frame offset, or a `created by`
line with a parent-goroutine number. -/
inductive SLine
  | fnLine (name : List Char) (args : List (List Char))
  | locLine (body : List Char) (off : List Char)
  | createdLine (name : List Char) (gid : List Char)

/-- `0x<h₁>, 0x<h₂>, ...` — the argument list of a symbol line. -/
def renderArgs : List (List Char) → List Char
  | [] => []
  | [h] => '0' :: 'x' :: h
  | h :: h2 :: rest => '0' :: 'x' :: (h ++ ',' :: ' ' :: renderArgs (h2 :: rest))

/-- What the argument list becomes under `hexPtrRe`: `..., ..., ...`. -/
def dotsArgs : List (List Char) → List Char
  | [] => []
  | [_] => '.' :: '.' :: '.' :: []
  | _ :: h2 :: rest => '.' :: '.' :: '.' :: ',' :: ' ' :: dotsArgs (h2 :: rest)

def renderLine : SLine → List Char
  | .fnLine name args => name ++ '(' :: (renderArgs args ++ [')'])
  | .locLine body off => body ++ '+' :: '0' :: 'x' :: off
  | .createdLine name gid => cbLit ++ (name ++ (igLit ++ gid))

/-- Well-formedness of a dump line: pointer values and frame offsets are
nonempty hex strings, the parent number is a nonempty digit string, and the
fixed texts (symbol name, file path) contain no hex-pointer-like substring,
no `+` (for the shapes whose tail must be found by `offsetRe`) and no
`created by `. -/
def wfLine : SLine → Bool
  | .fnLine name args =>
      hexPtrFree name && args.all (fun h => !h.isEmpty && h.all isHexDigit) &&
      !containsSub cbLit (name ++ '(' :: (renderArgs args ++ [')']))
  | .locLine body off =>
      body.all (fun c => c != '+') && hexPtrFree body && !containsSub cbLit body &&
      !off.isEmpty && off.all isHexDigit
  | .createdLine name gid =>
      !name.isEmpty && name.all (fun c => c != '+') && hexPtrFree (cbLit ++ name) &&
      !gid.isEmpty && gid.all Char.isDigit

/-- Two dump lines differ only in pointer values, frame offsets or
parent-task numbers: same shape, same fixed texts, same argument count. -/
def sameShape : SLine → SLine → Prop
  | .fnLine n1 a1, .fnLine n2 a2 => n1 = n2 ∧ a1.length = a2.length
  | .locLine b1 _, .locLine b2 _ => b1 = b2
  | .createdLine n1 _, .createdLine n2 _ => n1 = n2
  | _, _ => False

section C4Lines

theorem hexPtrReplace_renderArgs {args : List (List Char)}
    (h : ∀ a ∈ args, a ≠ [] ∧ ∀ c ∈ a, isHexDigit c = true) :
    hexPtrReplace (renderArgs args ++ [')']) = dotsArgs args ++ [')'] := by
  induction args with
  | nil => rfl
  | cons hd tl ih =>
    cases tl with
    | nil =>
      obtain ⟨hne, hhex⟩ := h hd (List.mem_cons_self hd [])
      rw [renderArgs, dotsArgs]
      rw [show ('0' :: 'x' :: hd) ++ [')'] = '0' :: 'x' :: (hd ++ [')']) from rfl]
      rw [hexPtrReplace_arg hne hhex (fun c hc => by
        simp only [List.head?_cons, Option.some.injEq] at hc
        subst hc
        exact ⟨by decide, by decide⟩)]
      rfl
    | cons hd2 tl2 =>
      obtain ⟨hne, hhex⟩ := h hd (List.mem_cons_self hd _)
      rw [renderArgs, dotsArgs]
      rw [show ('0' :: 'x' :: (hd ++ ',' :: ' ' :: renderArgs (hd2 :: tl2))) ++ [')'] =
        '0' :: 'x' :: (hd ++ (',' :: ' ' :: (renderArgs (hd2 :: tl2) ++ [')']))) by simp]
      rw [hexPtrReplace_arg hne hhex (fun c hc => by
        simp only [List.head?_cons, Option.some.injEq] at hc
        subst hc
        exact ⟨by decide, by decide⟩)]
      rw [hexPtrReplace_sep_cons (by exact ⟨by decide, by decide⟩),
        hexPtrReplace_sep_cons (by exact ⟨by decide, by decide⟩),
        ih (fun a ha => h a (List.mem_cons_of_mem hd ha))]
      simp

theorem clean_fnLine {name : List Char} {args : List (List Char)}
    (hw : wfLine (.fnLine name args) = true) :
    cleanStackLine (renderLine (.fnLine name args)) =
      name ++ '(' :: (dotsArgs args ++ [')']) := by
  simp only [wfLine, Bool.and_eq_true, Bool.not_eq_true', List.all_eq_true] at hw
  obtain ⟨⟨h1, h2⟩, h3⟩ := hw
  have h2' : ∀ a ∈ args, a ≠ [] ∧ ∀ c ∈ a, isHexDigit c = true := by
    intro a ha
    obtain ⟨ha1, ha2⟩ := h2 a ha
    refine ⟨fun he => ?_, fun c hc => ha2 c hc⟩
    subst he
    exact absurd ha1 (by decide)
  unfold cleanStackLine
  have hlast : (renderLine (.fnLine name args)).getLast? = some ')' := by
    show (name ++ '(' :: (renderArgs args ++ [')'])).getLast? = some ')'
    rw [show name ++ '(' :: (renderArgs args ++ [')']) =
      (name ++ '(' :: renderArgs args) ++ [')'] by simp]
    exact List.getLast?_concat _
  rw [show renderLine (.fnLine name args) = name ++ '(' :: (renderArgs args ++ [')'])
      from rfl] at hlast ⊢
  rw [stripOffset_of_getLast hlast (by decide) (by decide),
    createdByReplace_of_not_contains h3,
    hexPtrReplace_append_sep h1 (by exact ⟨by decide, by decide⟩),
    hexPtrReplace_renderArgs h2']

theorem clean_locLine {body off : List Char} (hw : wfLine (.locLine body off) = true) :
    cleanStackLine (renderLine (.locLine body off)) = body := by
  simp only [wfLine, Bool.and_eq_true, Bool.not_eq_true', List.all_eq_true] at hw
  obtain ⟨⟨⟨⟨h1, h2⟩, h3⟩, h4⟩, h5⟩ := hw
  have h1' : ∀ c ∈ body, c ≠ '+' := fun c hc => by simpa using h1 c hc
  cases off with
  | nil => exact absurd h4 (by decide)
  | cons d off' =>
    unfold cleanStackLine
    rw [show renderLine (.locLine body (d :: off')) =
        body ++ '+' :: '0' :: 'x' :: d :: off' from rfl]
    rw [stripOffset_concat_offset h1' (h5 d (List.mem_cons_self d off'))
      (fun c hc => h5 c (List.mem_cons_of_mem d hc))]
    rw [createdByReplace_of_not_contains h3, hexPtrReplace_of_hexPtrFree h2]

theorem clean_createdLine {name gid : List Char}
    (hw : wfLine (.createdLine name gid) = true) :
    cleanStackLine (renderLine (.createdLine name gid)) = cbLit ++ name := by
  simp only [wfLine, Bool.and_eq_true, Bool.not_eq_true', List.all_eq_true] at hw
  obtain ⟨⟨⟨⟨h1, h2⟩, h3⟩, h4⟩, h5⟩ := hw
  have h1' : name ≠ [] := fun he => by subst he; exact absurd h1 (by decide)
  have h4' : gid ≠ [] := fun he => by subst he; exact absurd h4 (by decide)
  unfold cleanStackLine
  rw [show renderLine (.createdLine name gid) = cbLit ++ (name ++ (igLit ++ gid))
      from rfl]
  have hcb : ∀ c ∈ cbLit, c ≠ '+' := by decide
  have hig : ∀ c ∈ igLit, c ≠ '+' := by decide
  have hplus : ∀ c ∈ cbLit ++ (name ++ (igLit ++ gid)), c ≠ '+' := by
    intro c hc
    rcases List.mem_append.mp hc with hc | hc
    · exact hcb c hc
    rcases List.mem_append.mp hc with hc | hc
    · simpa using h2 c hc
    rcases List.mem_append.mp hc with hc | hc
    · exact hig c hc
    · intro he
      subst he
      have := h5 '+' hc
      exact absurd this (by decide)
  rw [stripOffset_of_no_plus hplus, createdByReplace_createdLine h1' h4' h5,
    hexPtrReplace_of_hexPtrFree h3]

/-- `dotsArgs` only depends on the number of arguments. -/
theorem dotsArgs_congr {a1 a2 : List (List Char)} (h : a1.length = a2.length) :
    dotsArgs a1 = dotsArgs a2 := by
  induction a1 generalizing a2 with
  | nil =>
    cases a2 with
    | nil => rfl
    | cons b t => simp at h
  | cons x xs ih =>
    cases a2 with
    | nil => simp at h
    | cons y ys =>
      simp only [List.length_cons, Nat.add_right_cancel_iff] at h
      cases xs with
      | nil =>
        cases ys with
        | nil => rfl
        | cons z zs => simp at h
      | cons x2 xs2 =>
        cases ys with
        | nil => simp at h
        | cons y2 ys2 =>
          rw [dotsArgs, dotsArgs, ih h]

theorem clean_line_congr {L1 L2 : SLine} (hw1 : wfLine L1 = true)
    (hw2 : wfLine L2 = true) (hs : sameShape L1 L2) :
    cleanStackLine (renderLine L1) = cleanStackLine (renderLine L2) := by
  cases L1 with
  | fnLine n1 a1 =>
    cases L2 with
    | fnLine n2 a2 =>
      obtain ⟨hn, ha⟩ := hs
      subst hn
      rw [clean_fnLine hw1, clean_fnLine hw2, dotsArgs_congr ha]
    | locLine b2 o2 => exact absurd hs (by simp [sameShape])
    | createdLine n2 g2 => exact absurd hs (by simp [sameShape])
  | locLine b1 o1 =>
    cases L2 with
    | fnLine n2 a2 => exact absurd hs (by simp [sameShape])
    | locLine b2 o2 =>
      have hb : b1 = b2 := hs
      subst hb
      rw [clean_locLine hw1, clean_locLine hw2]
    | createdLine n2 g2 => exact absurd hs (by simp [sameShape])
  | createdLine n1 g1 =>
    cases L2 with
    | fnLine n2 a2 => exact absurd hs (by simp [sameShape])
    | locLine b2 o2 => exact absurd hs (by simp [sameShape])
    | createdLine n2 g2 =>
      have hn : n1 = n2 := hs
      subst hn
      rw [clean_createdLine hw1, clean_createdLine hw2]

end C4Lines

/-- **C4**: two stacks (joined lists of dump-format lines) that differ only in
hex pointer values, trailing `+0x<hex>` frame offsets, or the number of an
`in goroutine N` suffix — same shapes, same symbol names, same file/line
texts, same argument counts — normalize to byte-equal output under
`cleanStackLine` applied line by line. -/
theorem C4_normalized_equal_modulo_pointers (s1 s2 : List SLine)
    (hw1 : ∀ L ∈ s1, wfLine L = true) (hw2 : ∀ L ∈ s2, wfLine L = true)
    (hs : List.Forall₂ sameShape s1 s2) :
    joinNl (s1.map (fun L => cleanStackLine (renderLine L))) =
      joinNl (s2.map (fun L => cleanStackLine (renderLine L))) := by
  have hmap : s1.map (fun L => cleanStackLine (renderLine L)) =
      s2.map (fun L => cleanStackLine (renderLine L)) := by
    induction hs with
    | nil => rfl
    | cons h t ih =>
      rw [List.map_cons, List.map_cons,
        clean_line_congr (hw1 _ (List.mem_cons_self _ _))
          (hw2 _ (List.mem_cons_self _ _)) h,
        ih (fun L hL => hw1 L (List.mem_cons_of_mem _ hL))
          (fun L hL => hw2 L (List.mem_cons_of_mem _ hL))]
  rw [hmap]

theorem C4_normalized_equal_witness :
    joinNl (([SLine.fnLine "pkg.Do".data ["c0001234".data, "456".data],
        SLine.locLine "\t/a/b.go:10 ".data "45".data,
        SLine.createdLine "pkg.main".data "5".data]).map
          (fun L => cleanStackLine (renderLine L))) =
      joinNl (([SLine.fnLine "pkg.Do".data ["c0009999".data, "1".data],
        SLine.locLine "\t/a/b.go:10 ".data "1ff".data,
        SLine.createdLine "pkg.main".data "12".data]).map
          (fun L => cleanStackLine (renderLine L))) :=
  C4_normalized_equal_modulo_pointers _ _ (by decide) (by decide)
    (List.Forall₂.cons ⟨rfl, rfl⟩ (List.Forall₂.cons rfl
      (List.Forall₂.cons rfl List.Forall₂.nil)))

end GScrape
